import Mathlib

/-!
OSTEP concurrency structures: hash table, two-lock queue, sloppy counter.

Shallow embedding of `src/concurrency/concurrent_hash.c`,
`src/concurrency/concurrent_queue.c` and `src/concurrency/sloppy_counter.c`.

Conventions of the embedding.
* A C `int` is an `Int`; the 32-bit range is `INT_MIN .. INT_MAX`.
* Every function is modelled for one caller at a time: each
  `pthread_mutex_lock` is matched by an unlock on every path, so a call is
  one atomic step and the locks carry no state there. The order in which
  `sloppy_update` and `sloppy_get_precise` take their mutexes is modelled
  separately, thread by thread, in `thread_step`.
* A call that reads or writes outside an array, or through `NULL` or a freed
  node, yields `none`; so does an `int` addition of the counter whose sum
  leaves the 32-bit range. `abs` is the one operation modelled by its
  two's-complement result.
* The chains of the hash table are lists (the `next` link of a node is the
  tail of its list); the queue, whose `tail` pointer aliases the chain, is
  modelled over an explicit heap of nodes.
* The outcome of every `malloc` is an input of the call that makes it.
-/

/-- Smallest value of a C `int`. -/
def INT_MIN : Int := -2147483648

/-- Largest value of a C `int`. -/
def INT_MAX : Int := 2147483647

/-- Reduction of a mathematical integer to the value a 32-bit two's-complement
register holds. -/
def wrap32 (x : Int) : Int := (x + 2147483648) % 4294967296 - 2147483648

/-- C library `abs` on a 32-bit `int`: the negation is computed in the
register, so `abs(INT_MIN)` is `INT_MIN` again. -/
def c_abs (x : Int) : Int := if x < 0 then wrap32 (-x) else x

namespace ConcurrentHash

/-- `#define NUM_BUCKETS 101`. -/
def NUM_BUCKETS : Nat := 101

/-- A chain node: `key`, `value`; the `next` link is the tail of the list the
node sits in. -/
structure node_t where
  key : Int
  value : Int
deriving DecidableEq, Repr

/-- The table: `buckets[i].head` is the chain of bucket `i` (a `NULL` head is
the empty list), `num_buckets` is the field set by `hash_init`. -/
structure hashtable_t where
  buckets : List (List node_t)
  num_buckets : Int
deriving DecidableEq, Repr

/-- `hash_init`: every head is `NULL`, `num_buckets = NUM_BUCKETS`. -/
def hash_init : hashtable_t :=
  { buckets := List.replicate NUM_BUCKETS [], num_buckets := NUM_BUCKETS }

/-- `hash_func`: `abs(key) % ht->num_buckets`, with C's truncating `%`. -/
def hash_func (ht : hashtable_t) (key : Int) : Int :=
  Int.tmod (c_abs key) ht.num_buckets

/-- Read of `ht->buckets[idx].head`; `none` when `idx` is outside the array
`buckets[NUM_BUCKETS]`. -/
def bucket_at (ht : hashtable_t) (idx : Int) : Option (List node_t) :=
  if 0 ≤ idx ∧ idx < NUM_BUCKETS then ht.buckets[idx.toNat]? else none

/-- Write of `ht->buckets[idx].head` (the index has been read before). -/
def bucket_set (ht : hashtable_t) (idx : Int) (chain : List node_t) : hashtable_t :=
  { ht with buckets := ht.buckets.set idx.toNat chain }

/-- The scan of `hash_insert`: the first node whose key is `key` gets
`value`; `none` when the loop reaches `NULL`. -/
def chain_update (key value : Int) : List node_t → Option (List node_t)
  | [] => none
  | cur :: rest =>
    if cur.key = key then some ({ cur with value := value } :: rest)
    else (chain_update key value rest).map (fun r => cur :: r)

/-- The scan of `hash_lookup`: the value of the first node whose key is
`key`; `none` when the loop reaches `NULL`. -/
def chain_find (key : Int) : List node_t → Option Int
  | [] => none
  | cur :: rest => if cur.key = key then some cur.value else chain_find key rest

/-- The scan of `hash_delete`: the first node whose key is `key` is unlinked
(from the head or from its predecessor); `none` when the loop reaches
`NULL`. -/
def chain_unlink (key : Int) : List node_t → Option (List node_t)
  | [] => none
  | cur :: rest =>
    if cur.key = key then some rest
    else (chain_unlink key rest).map (fun r => cur :: r)

/-- `hash_insert`. `new_node` tells whether `malloc` returned a node. Result:
the table after the call and the returned `int` (`-1` allocation failed, `1`
updated, `0` inserted). -/
def hash_insert (ht : hashtable_t) (key value : Int) (new_node : Bool) :
    Option (hashtable_t × Int) :=
  let bucket_idx := hash_func ht key
  if new_node = false then some (ht, -1)
  else
    match bucket_at ht bucket_idx with
    | none => none
    | some chain =>
      match chain_update key value chain with
      | some chain1 => some (bucket_set ht bucket_idx chain1, 1)
      | none => some (bucket_set ht bucket_idx ({ key := key, value := value } :: chain), 0)

/-- `hash_lookup`. `value` is the content of `*value` before the call; the
result is the returned `int` and the content of `*value` after the call. -/
def hash_lookup (ht : hashtable_t) (key : Int) (value : Int) : Option (Int × Int) :=
  let bucket_idx := hash_func ht key
  match bucket_at ht bucket_idx with
  | none => none
  | some chain =>
    match chain_find key chain with
    | some v => some (1, v)
    | none => some (0, value)

/-- `hash_delete`: the table after the call and the returned `int`. -/
def hash_delete (ht : hashtable_t) (key : Int) : Option (hashtable_t × Int) :=
  let bucket_idx := hash_func ht key
  match bucket_at ht bucket_idx with
  | none => none
  | some chain =>
    match chain_unlink key chain with
    | some chain1 => some (bucket_set ht bucket_idx chain1, 1)
    | none => some (ht, 0)

/-- The three figures `hash_stats` prints from its loop: `total`,
`non_empty_bucket`, `max_chain`. -/
structure stats_t where
  total : Nat
  non_empty_bucket : Nat
  max_chain : Nat
deriving DecidableEq, Repr

/-- Inner loop of `hash_stats`: `chain_len++` for every node. -/
def chain_len : List node_t → Nat
  | [] => 0
  | _ :: rest => chain_len rest + 1

/-- Outer loop of `hash_stats` over the buckets in index order. The counters
are not reduced to 32 bits: a chain of `2^31` nodes is outside the model. -/
def hash_stats (ht : hashtable_t) : stats_t :=
  ht.buckets.foldl
    (fun acc chain =>
      { total := acc.total + chain_len chain
        non_empty_bucket := if chain_len chain > 0 then acc.non_empty_bucket + 1
                            else acc.non_empty_bucket
        max_chain := if chain_len chain > acc.max_chain then chain_len chain
                     else acc.max_chain })
    { total := 0, non_empty_bucket := 0, max_chain := 0 }

/-- A call that changes the table. -/
inductive hash_op where
  | insert (key value : Int) (new_node : Bool)
  | delete (key : Int)
deriving DecidableEq, Repr

/-- One call applied to a table. -/
def hash_step (ht : hashtable_t) : hash_op → Option hashtable_t
  | .insert key value new_node => (hash_insert ht key value new_node).map Prod.fst
  | .delete key => (hash_delete ht key).map Prod.fst

/-- A sequence of calls, left to right. -/
def hash_run : List hash_op → hashtable_t → Option hashtable_t
  | [], ht => some ht
  | op :: ops, ht =>
    match hash_step ht op with
    | none => none
    | some ht1 => hash_run ops ht1

/-- Tables reached from `hash_init` by `hash_insert` / `hash_delete` calls. -/
def Reachable (ht : hashtable_t) : Prop := ∃ ops, hash_run ops hash_init = some ht

/-- Key `k` has an entry in the table. -/
def present (ht : hashtable_t) (k : Int) : Prop :=
  ∃ chain ∈ ht.buckets, ∃ n ∈ chain, n.key = k

/-- The keys of a chain, head first. -/
def chain_keys (chain : List node_t) : List Int := chain.map node_t.key

end ConcurrentHash

namespace ConcurrentQueue

/-- A queue node: `value` and the `next` pointer (`none` is `NULL`, `some a`
the node at address `a`). -/
structure node_t where
  value : Int
  next : Option Nat
deriving DecidableEq, Repr

/-- The queue together with the nodes it points into. `heap[a]` is the node
at address `a`: `some n` while allocated, `none` after `free`. `head` and
`tail` are the two pointers of the C struct. -/
structure queue_t where
  heap : List (Option node_t)
  head : Option Nat
  tail : Option Nat
deriving DecidableEq, Repr

/-- Read through a node pointer; `none` for `NULL`, an address never
allocated, or a freed node. -/
def load (heap : List (Option node_t)) : Option Nat → Option node_t
  | none => none
  | some a => (heap[a]?).join

/-- Write through a node pointer: the node `p` points to becomes `f` of what
it was; `none` for `NULL`, an address never allocated, or a freed node. -/
def store (heap : List (Option node_t)) (p : Option Nat) (f : node_t → node_t) :
    Option (List (Option node_t)) :=
  match p, load heap p with
  | some a, some n => some (heap.set a (some (f n)))
  | _, _ => none

/-- One `malloc(sizeof(node_t))`. `outcome` is what the allocator does: `none`
when it returns `NULL`, `some junk` when it returns a node, `junk` being the
content it left there. A node gets the next unused address; freed addresses
are not handed out again. Result: the heap and the pointer returned. -/
def malloc (heap : List (Option node_t)) (outcome : Option node_t) :
    List (Option node_t) × Option Nat :=
  match outcome with
  | none => (heap, none)
  | some junk => (heap ++ [some junk], some heap.length)

/-- `queue_init`: `dummy = malloc(..)`, `dummy->next = NULL`, `q->head = dummy`,
`q->tail = dummy`. The result of `malloc` is not tested, so on `NULL` the
write `dummy->next = NULL` goes through `NULL`: `none`. The `value` field of
the dummy node is never written. -/
def queue_init (outcome : Option node_t) : Option queue_t :=
  let (heap0, dummy) := malloc [] outcome
  match store heap0 dummy (fun n => { n with next := none }) with
  | none => none
  | some heap => some { heap := heap, head := dummy, tail := dummy }

/-- `q_enqueue`: `new_node = malloc(..)`, `new_node->value = value`,
`new_node->next = NULL`, then `q->tail->next = new_node`, `q->tail = new_node`.
The result of `malloc` is not tested, so on `NULL` the write
`new_node->value = value` goes through `NULL`: `none`. -/
def q_enqueue (q : queue_t) (value : Int) (outcome : Option node_t) : Option queue_t :=
  let (heap0, new_node) := malloc q.heap outcome
  match store heap0 new_node (fun _ => { value := value, next := none }) with
  | none => none
  | some heap1 =>
    match store heap1 q.tail (fun tn => { tn with next := new_node }) with
    | none => none
    | some heap2 => some { heap := heap2, head := q.head, tail := new_node }

/-- `q_dequeue`. `value` is the content of `*value` before the call. Result:
the queue after the call, the returned `int` and the content of `*value`
after the call. -/
def q_dequeue (q : queue_t) (value : Int) : Option (queue_t × Int × Int) :=
  match q.head, load q.heap q.head with
  | some dummy, some dn =>
    match dn.next with
    | none => some (q, -1, value)
    | some new_head =>
      match load q.heap (some new_head) with
      | none => none
      | some nn =>
        some ({ heap := q.heap.set dummy none, head := some new_head, tail := q.tail },
              0, nn.value)
  | _, _ => none

/-- `q_is_empty`: the `int` value of `q->head->next == NULL`. -/
def q_is_empty (q : queue_t) : Option Int :=
  match load q.heap q.head with
  | none => none
  | some hn => some (if hn.next = none then 1 else 0)

/-- The loop of `q_size`: `cnt++` for every node from `cur` on. `fuel`
bounds the number of iterations. The counter is not reduced to 32 bits: a
queue of `2^31` nodes is outside the model. -/
def size_loop (heap : List (Option node_t)) : Nat → Option Nat → Option Nat
  | _, none => some 0
  | 0, some _ => none
  | fuel + 1, some a =>
    match load heap (some a) with
    | none => none
    | some n => (size_loop heap fuel n.next).map (fun cnt => cnt + 1)

/-- `q_size`: the number of nodes after `q->head`. -/
def q_size (fuel : Nat) (q : queue_t) : Option Nat :=
  match load q.heap q.head with
  | none => none
  | some hn => size_loop q.heap fuel hn.next

/-- The loop `while (q_dequeue(q, &val) == 0) {}` of `q_destroy`, recording
the values delivered. `fuel` bounds the number of calls. -/
def dequeue_all : Nat → queue_t → Int → Option (queue_t × List Int)
  | 0, _, _ => none
  | fuel + 1, q, val =>
    match q_dequeue q val with
    | none => none
    | some (q1, ret, val1) =>
      if ret = 0 then (dequeue_all fuel q1 val1).map (fun r => (r.1, val1 :: r.2))
      else some (q1, [])

/-- A call on the queue; an enqueue comes with the outcome of its `malloc`. -/
inductive queue_op where
  | enqueue (value : Int) (outcome : Option node_t)
  | dequeue
deriving DecidableEq, Repr

/-- One call; the list holds the value a successful dequeue delivered. -/
def q_step (q : queue_t) : queue_op → Option (queue_t × List Int)
  | .enqueue value outcome => (q_enqueue q value outcome).map (fun q1 => (q1, []))
  | .dequeue =>
    (q_dequeue q 0).map (fun r => (r.1, if r.2.1 = 0 then [r.2.2] else []))

/-- A sequence of calls, left to right, with the values delivered in order. -/
def q_run : List queue_op → queue_t → Option (queue_t × List Int)
  | [], q => some (q, [])
  | op :: ops, q =>
    match q_step q op with
    | none => none
    | some (q1, out1) => (q_run ops q1).map (fun r => (r.1, out1 ++ r.2))

/-- The values passed to `q_enqueue` by a sequence of calls, in call order. -/
def enqueued : List queue_op → List Int
  | [] => []
  | .enqueue value _ :: ops => value :: enqueued ops
  | .dequeue :: ops => enqueued ops

/-- Every `malloc` of a sequence of calls returns a node. -/
def allocs_ok : List queue_op → Bool
  | [] => true
  | .enqueue _ outcome :: ops => outcome.isSome && allocs_ok ops
  | .dequeue :: ops => allocs_ok ops

/-- Queue states reached from `queue_init` by `q_enqueue` / `q_dequeue`. -/
def Reachable (q : queue_t) : Prop :=
  ∃ outcome q0 ops out, queue_init outcome = some q0 ∧ q_run ops q0 = some (q, out)

/-- Follow `next` pointers `k` times from pointer `p`. -/
def walk (heap : List (Option node_t)) : Nat → Option Nat → Option Nat
  | 0, p => p
  | k + 1, p =>
    match load heap p with
    | none => none
    | some n => walk heap k n.next

end ConcurrentQueue

namespace SloppyCounter

/-- `#define NUM_CPUS 4`. -/
def NUM_CPUS : Nat := 4

/-- The counter: `global`, the array `local[NUM_CPUS]`, `threshold`. -/
structure sloppy_counter_t where
  global : Int
  «local» : List Int
  threshold : Int
deriving DecidableEq, Repr

/-- Addition of two `int`s; `none` when the sum leaves the `int` range
(signed overflow). -/
def add32 (a b : Int) : Option Int :=
  if INT_MIN ≤ a + b ∧ a + b ≤ INT_MAX then some (a + b) else none

/-- `sloppy_init`. -/
def sloppy_init (threshold : Int) : sloppy_counter_t :=
  { global := 0, «local» := List.replicate NUM_CPUS 0, threshold := threshold }

/-- `sloppy_update`: `local[cpu_id] += amt`, and when the new local value is
`>= threshold`, `global += local[cpu_id]; local[cpu_id] = 0`. -/
def sloppy_update (c : sloppy_counter_t) (cpu_id amt : Int) : Option sloppy_counter_t :=
  if 0 ≤ cpu_id ∧ cpu_id < NUM_CPUS then
    match c.«local»[cpu_id.toNat]? with
    | none => none
    | some l =>
      match add32 l amt with
      | none => none
      | some l1 =>
        if l1 ≥ c.threshold then
          match add32 c.global l1 with
          | none => none
          | some g1 => some { c with global := g1, «local» := c.«local».set cpu_id.toNat 0 }
        else some { c with «local» := c.«local».set cpu_id.toNat l1 }
  else none

/-- `sloppy_get_approx`: the global value. -/
def sloppy_get_approx (c : sloppy_counter_t) : Int := c.global

/-- The loop of `sloppy_get_precise` from index `i` on: `total += local[i]`
for the next `n` indices. -/
def precise_loop (c : sloppy_counter_t) : Nat → Nat → Int → Option Int
  | 0, _, total => some total
  | n + 1, i, total =>
    match c.«local»[i]? with
    | none => none
    | some l =>
      match add32 total l with
      | none => none
      | some total1 => precise_loop c n (i + 1) total1

/-- `sloppy_get_precise`: `global` plus every `local[i]`, `i = 0 .. NUM_CPUS-1`. -/
def sloppy_get_precise (c : sloppy_counter_t) : Option Int :=
  precise_loop c NUM_CPUS 0 c.global

/-- A sequence of `sloppy_update(c, cpu_id, amt)` calls, left to right. -/
def sloppy_run : List (Int × Int) → sloppy_counter_t → Option sloppy_counter_t
  | [], c => some c
  | (cpu_id, amt) :: calls, c =>
    match sloppy_update c cpu_id amt with
    | none => none
    | some c1 => sloppy_run calls c1

/-- The sum of the amounts passed by a sequence of calls. -/
def amounts (calls : List (Int × Int)) : Int := (calls.map Prod.snd).sum

end SloppyCounter

namespace ConcurrentHash

/-- The node `hash_insert` leaves in place of `n` when it updates key `k`. -/
def overwrite (k v : Int) (n : node_t) : node_t :=
  if n.key = k then { n with value := v } else n

/-- Well-formedness of a table: the shape `hash_init` gives it, no chain
holds a key twice, and every key sits in the bucket `hash_func` names. -/
def table_inv (ht : hashtable_t) : Prop :=
  ht.num_buckets = 101 ∧ ht.buckets.length = 101 ∧
  ∀ (i : Nat) (chain : List node_t), ht.buckets[i]? = some chain →
    (chain_keys chain).Nodup ∧ ∀ k ∈ chain_keys chain, hash_func ht k = (i : Int)

/-- The table after `hash_insert(ht, 1, 10)` and `hash_insert(ht, 102, 20)` on
a fresh table: both keys hash to bucket 1. -/
def sample_table : hashtable_t :=
  bucket_set hash_init 1 [{ key := 102, value := 20 }, { key := 1, value := 10 }]

end ConcurrentHash

namespace ConcurrentQueue

/-- The nodes of a chain, as (address, value) pairs in link order: each node
is allocated, holds its value, and points to the next one (`NULL` for the
last). -/
def cells (heap : List (Option node_t)) : List (Nat × Int) → Prop
  | [] => True
  | (a, v) :: rest =>
    heap[a]? = some (some { value := v, next := rest.head?.map Prod.fst }) ∧ cells heap rest

/-- Queue `q` consists of the chain `l`: `head` is its first node, `tail` its
last, and no node occurs twice. -/
def rep (q : queue_t) (l : List (Nat × Int)) : Prop :=
  l ≠ [] ∧ cells q.heap l ∧ (l.map Prod.fst).Nodup ∧
  q.head = l.head?.map Prod.fst ∧ q.tail = l.getLast?.map Prod.fst

/-- The values waiting in the queue: those of the nodes after the head. -/
def content (l : List (Nat × Int)) : List Int := l.tail.map Prod.snd

/-- One call on the list of waiting values: the new list and the values
delivered. -/
def fifo_step (c : List Int) : queue_op → List Int × List Int
  | .enqueue v _ => (c ++ [v], [])
  | .dequeue =>
    match c with
    | [] => ([], [])
    | x :: c1 => (c1, [x])

/-- A sequence of calls on the list of waiting values. -/
def fifo_run : List queue_op → List Int → List Int × List Int
  | [], c => (c, [])
  | op :: ops, c =>
    ((fifo_run ops (fifo_step c op).1).1, (fifo_step c op).2 ++ (fifo_run ops (fifo_step c op).1).2)

/-- The queue with the `value` field of the head node overwritten by `x`. -/
def poke_head (q : queue_t) (x : Int) : queue_t :=
  match q.head, load q.heap q.head with
  | some d, some hn => { q with heap := q.heap.set d (some { hn with value := x }) }
  | _, _ => q

/-- The queue right after `queue_init` when the allocator left value 7 in the
dummy node. -/
def fresh_queue : queue_t :=
  { heap := [some { value := 7, next := none }], head := some 0, tail := some 0 }

/-- The queue after `queue_init` (dummy value 7) and `q_enqueue(q, 5)`. -/
def sample_queue : queue_t :=
  { heap := [some { value := 7, next := some 1 }, some { value := 5, next := none }]
    head := some 0
    tail := some 1 }

/-- The calls `q_enqueue(q, 5)`, `q_enqueue(q, 6)`, `q_dequeue`,
`q_enqueue(q, 7)`, every `malloc` returning a node with some content. -/
def sample_calls : List queue_op :=
  [.enqueue 5 (some { value := 0, next := none }),
   .enqueue 6 (some { value := 99, next := some 42 }),
   .dequeue,
   .enqueue 7 (some { value := -1, next := some 0 })]

/-- The queue after `sample_calls` on `fresh_queue`: 5 is delivered, 6 and 7
wait. -/
def busy_queue : queue_t :=
  { heap := [none, some { value := 5, next := some 2 }, some { value := 6, next := some 3 },
             some { value := 7, next := none }]
    head := some 1
    tail := some 3 }

end ConcurrentQueue

namespace SloppyCounter

/-- The number of calls in a sequence that name slot `i`. -/
def slot_count (calls : List (Int × Int)) (i : Nat) : Nat :=
  (calls.map Prod.fst).count (i : Int)

end SloppyCounter

namespace ConcurrentHash

/-- The calls `hash_insert(ht, key, value)` for the pairs of `ins`, in order,
each with a node from `malloc`. -/
def insert_calls (ins : List (Int × Int)) : List hash_op :=
  ins.map (fun p => hash_op.insert p.1 p.2 true)

/-- The value of the last pair of `ins` whose key is `k`. -/
def last_write : List (Int × Int) → Int → Option Int
  | [], _ => none
  | (key, value) :: rest, k =>
    match last_write rest k with
    | some w => some w
    | none => if key = k then some value else none

/-- All keys stored in the table, bucket by bucket. -/
def all_keys (ht : hashtable_t) : List Int := (ht.buckets.map chain_keys).flatten

/-- The workload of the test in `main`: keys 0..499 with value 0, then keys
1000..1499 with value 1. -/
def two_ranges : List (Int × Int) :=
  (List.range 500).map (fun (i : Nat) => ((i : Int), (0 : Int))) ++
  (List.range 500).map (fun (i : Nat) => ((i : Int) + 1000, (1 : Int)))

end ConcurrentHash

namespace SloppyCounter

/-- The mutexes of the counter: `glock` and `llock[i]`. -/
inductive lock_t where
  | glock
  | llock (i : Nat)
deriving DecidableEq, Repr

/-- Where a thread stands inside `sloppy_update` or `sloppy_get_precise`: each
constructor names the next `pthread_mutex_lock` / `pthread_mutex_unlock` call
of the thread and carries its local variables. -/
inductive thread_t where
  | update_lock_local (cpu_id amt : Int)
  | update_lock_global (cpu_id : Int)
  | update_unlock_global (cpu_id : Int)
  | update_unlock_local (cpu_id : Int)
  | precise_lock_global
  | precise_lock_local (i : Nat) (total : Int)
  | precise_unlock_local (i : Nat) (total : Int)
  | precise_unlock_global (total : Int)
  | finished (result : Option Int)
deriving DecidableEq, Repr

/-- The counter shared by several threads: its data, the owner of `glock`,
the owners of `llock[0 .. NUM_CPUS-1]` (`none` is unlocked), and the
threads, a thread being named by its position. -/
structure shared_t where
  counter : sloppy_counter_t
  gowner : Option Nat
  lowner : List (Option Nat)
  threads : List thread_t
deriving DecidableEq, Repr

/-- All mutexes unlocked, as after `sloppy_init`. -/
def start (c : sloppy_counter_t) (threads : List thread_t) : shared_t :=
  { counter := c, gowner := none, lowner := List.replicate NUM_CPUS none, threads := threads }

/-- One step of thread `tid`: its next mutex call together with the
statements up to the following mutex call. `none` when the thread does not
exist, has returned, would block on a mutex that is held, or the step is
undefined. -/
def thread_step (s : shared_t) (tid : Nat) : Option shared_t :=
  match s.threads[tid]? with
  | none => none
  | some (.finished _) => none
  | some (.update_lock_local cpu_id amt) =>
    if 0 ≤ cpu_id ∧ cpu_id < NUM_CPUS then
      match s.lowner[cpu_id.toNat]?, s.counter.«local»[cpu_id.toNat]? with
      | some none, some l =>
        match add32 l amt with
        | none => none
        | some l1 =>
          some { counter := { s.counter with «local» := s.counter.«local».set cpu_id.toNat l1 }
                 gowner := s.gowner
                 lowner := s.lowner.set cpu_id.toNat (some tid)
                 threads := s.threads.set tid
                   (if l1 ≥ s.counter.threshold then .update_lock_global cpu_id
                    else .update_unlock_local cpu_id) }
      | _, _ => none
    else none
  | some (.update_lock_global cpu_id) =>
    match s.gowner, s.counter.«local»[cpu_id.toNat]? with
    | none, some l =>
      match add32 s.counter.global l with
      | none => none
      | some g1 =>
        some { counter := { s.counter with global := g1 }
               gowner := some tid
               lowner := s.lowner
               threads := s.threads.set tid (.update_unlock_global cpu_id) }
    | _, _ => none
  | some (.update_unlock_global cpu_id) =>
    some { counter := { s.counter with «local» := s.counter.«local».set cpu_id.toNat 0 }
           gowner := none
           lowner := s.lowner
           threads := s.threads.set tid (.update_unlock_local cpu_id) }
  | some (.update_unlock_local cpu_id) =>
    some { counter := s.counter
           gowner := s.gowner
           lowner := s.lowner.set cpu_id.toNat none
           threads := s.threads.set tid (.finished none) }
  | some .precise_lock_global =>
    match s.gowner with
    | none =>
      some { counter := s.counter
             gowner := some tid
             lowner := s.lowner
             threads := s.threads.set tid
               (if 0 < NUM_CPUS then .precise_lock_local 0 s.counter.global
                else .precise_unlock_global s.counter.global) }
    | some _ => none
  | some (.precise_lock_local i total) =>
    match s.lowner[i]?, s.counter.«local»[i]? with
    | some none, some l =>
      match add32 total l with
      | none => none
      | some total1 =>
        some { counter := s.counter
               gowner := s.gowner
               lowner := s.lowner.set i (some tid)
               threads := s.threads.set tid (.precise_unlock_local i total1) }
    | _, _ => none
  | some (.precise_unlock_local i total) =>
    some { counter := s.counter
           gowner := s.gowner
           lowner := s.lowner.set i none
           threads := s.threads.set tid
             (if i + 1 < NUM_CPUS then .precise_lock_local (i + 1) total
              else .precise_unlock_global total) }
  | some (.precise_unlock_global total) =>
    some { counter := s.counter
           gowner := none
           lowner := s.lowner
           threads := s.threads.set tid (.finished (some total)) }

/-- An interleaving: the listed threads take one step each, in order. -/
def sched_run : List Nat → shared_t → Option shared_t
  | [], s => some s
  | tid :: sched, s =>
    match thread_step s tid with
    | none => none
    | some s1 => sched_run sched s1

/-- The mutex the next call of a thread acquires, if that call is a lock. -/
def wanted : thread_t → Option lock_t
  | .update_lock_local cpu_id _ => some (.llock cpu_id.toNat)
  | .update_lock_global _ => some .glock
  | .precise_lock_global => some .glock
  | .precise_lock_local i _ => some (.llock i)
  | _ => none

/-- The thread holding a mutex. -/
def holder (s : shared_t) : lock_t → Option Nat
  | .glock => s.gowner
  | .llock i => (s.lowner[i]?).join

/-- Thread `tid` waits for a mutex held by another thread. -/
def waiting (s : shared_t) (tid : Nat) (t : thread_t) : Bool :=
  match wanted t with
  | none => false
  | some lk =>
    match holder s lk with
    | none => false
    | some owner => owner != tid

/-- The thread has returned from its call. -/
def is_finished : thread_t → Bool
  | .finished _ => true
  | _ => false

/-- Some thread has not returned, and every thread that has not returned
waits for a mutex held by another thread. -/
def deadlocked (s : shared_t) : Bool :=
  s.threads.any (fun t => !is_finished t) &&
  (List.range s.threads.length).all (fun tid =>
    match s.threads[tid]? with
    | none => true
    | some t => is_finished t || waiting s tid t)

/-- Threshold 1, thread 0 inside `sloppy_update(c, 0, 1)` holding `llock[0]`
and about to lock `glock`, thread 1 inside `sloppy_get_precise(c)` holding
`glock` and about to lock `llock[0]`. -/
def crossed : shared_t :=
  { counter := { global := 0, «local» := [1, 0, 0, 0], threshold := 1 }
    gowner := some 1
    lowner := [some 0, none, none, none]
    threads := [.update_lock_global 0, .precise_lock_local 0 0] }

end SloppyCounter

/-! Hash table: chain lemmas -/

namespace ConcurrentHash

theorem chain_update_eq_none (key value : Int) (chain : List node_t) :
    chain_update key value chain = none ↔ key ∉ chain_keys chain := by
  induction chain with
  | nil => simp [chain_update, chain_keys]
  | cons cur rest ih =>
    by_cases h : cur.key = key
    · simp [chain_update, chain_keys, h]
    · have h2 : ¬ key = cur.key := fun e => h e.symm
      simp [chain_update, chain_keys, h, h2] at ih ⊢
      exact ih

theorem chain_update_keys (key value : Int) :
    ∀ (chain chain1 : List node_t), chain_update key value chain = some chain1 →
      chain_keys chain1 = chain_keys chain := by
  intro chain
  induction chain with
  | nil => intro chain1 h; simp [chain_update] at h
  | cons cur rest ih =>
    intro chain1 h
    by_cases hk : cur.key = key
    · simp [chain_update, hk] at h
      subst h
      simp [chain_keys, hk]
    · simp [chain_update, hk] at h
      obtain ⟨r, hr, rfl⟩ := h
      have := ih r hr
      simp [chain_keys] at this ⊢
      exact this

theorem chain_find_update_same (key value : Int) :
    ∀ (chain chain1 : List node_t), chain_update key value chain = some chain1 →
      chain_find key chain1 = some value := by
  intro chain
  induction chain with
  | nil => intro chain1 h; simp [chain_update] at h
  | cons cur rest ih =>
    intro chain1 h
    by_cases hk : cur.key = key
    · simp [chain_update, hk] at h
      subst h
      simp [chain_find, hk]
    · simp [chain_update, hk] at h
      obtain ⟨r, hr, rfl⟩ := h
      simp [chain_find, hk, ih r hr]

theorem chain_find_update_other (key value k2 : Int) (hne : k2 ≠ key) :
    ∀ (chain chain1 : List node_t), chain_update key value chain = some chain1 →
      chain_find k2 chain1 = chain_find k2 chain := by
  intro chain
  induction chain with
  | nil => intro chain1 h; simp [chain_update] at h
  | cons cur rest ih =>
    intro chain1 h
    by_cases hk : cur.key = key
    · simp [chain_update, hk] at h
      subst h
      have : ¬ key = k2 := fun e => hne e.symm
      simp [chain_find, hk, this]
    · simp [chain_update, hk] at h
      obtain ⟨r, hr, rfl⟩ := h
      simp [chain_find, ih r hr]

theorem chain_find_eq_none (key : Int) (chain : List node_t) :
    chain_find key chain = none ↔ key ∉ chain_keys chain := by
  induction chain with
  | nil => simp [chain_find, chain_keys]
  | cons cur rest ih =>
    by_cases h : cur.key = key
    · simp [chain_find, chain_keys, h]
    · have h2 : ¬ key = cur.key := fun e => h e.symm
      simp [chain_find, chain_keys, h, h2] at ih ⊢
      exact ih

theorem chain_unlink_eq_none (key : Int) (chain : List node_t) :
    chain_unlink key chain = none ↔ key ∉ chain_keys chain := by
  induction chain with
  | nil => simp [chain_unlink, chain_keys]
  | cons cur rest ih =>
    by_cases h : cur.key = key
    · simp [chain_unlink, chain_keys, h]
    · have h2 : ¬ key = cur.key := fun e => h e.symm
      simp [chain_unlink, chain_keys, h, h2] at ih ⊢
      exact ih

theorem chain_unlink_sublist (key : Int) :
    ∀ (chain chain1 : List node_t), chain_unlink key chain = some chain1 →
      List.Sublist chain1 chain := by
  intro chain
  induction chain with
  | nil => intro chain1 h; simp [chain_unlink] at h
  | cons cur rest ih =>
    intro chain1 h
    by_cases hk : cur.key = key
    · simp [chain_unlink, hk] at h
      subst h
      exact List.sublist_cons_self cur rest
    · simp [chain_unlink, hk] at h
      obtain ⟨r, hr, rfl⟩ := h
      exact (ih r hr).cons₂ cur

theorem chain_unlink_len (key : Int) :
    ∀ (chain chain1 : List node_t), chain_unlink key chain = some chain1 →
      chain_len chain1 + 1 = chain_len chain := by
  intro chain
  induction chain with
  | nil => intro chain1 h; simp [chain_unlink] at h
  | cons cur rest ih =>
    intro chain1 h
    by_cases hk : cur.key = key
    · simp [chain_unlink, hk] at h
      subst h
      simp [chain_len]
    · simp [chain_unlink, hk] at h
      obtain ⟨r, hr, rfl⟩ := h
      simp [chain_len, ih r hr]

theorem chain_find_unlink_same (key : Int) :
    ∀ (chain chain1 : List node_t), (chain_keys chain).Nodup →
      chain_unlink key chain = some chain1 → chain_find key chain1 = none := by
  intro chain
  induction chain with
  | nil => intro chain1 _ h; simp [chain_unlink] at h
  | cons cur rest ih =>
    intro chain1 hnd h
    have hnd2 : cur.key ∉ chain_keys rest ∧ (chain_keys rest).Nodup := by
      simpa [chain_keys] using hnd
    by_cases hk : cur.key = key
    · simp [chain_unlink, hk] at h
      subst h
      rw [chain_find_eq_none, ← hk]
      exact hnd2.1
    · simp [chain_unlink, hk] at h
      obtain ⟨r, hr, rfl⟩ := h
      simp [chain_find, hk, ih r hnd2.2 hr]

theorem chain_find_unlink_other (key k2 : Int) (hne : k2 ≠ key) :
    ∀ (chain chain1 : List node_t), chain_unlink key chain = some chain1 →
      chain_find k2 chain1 = chain_find k2 chain := by
  intro chain
  induction chain with
  | nil => intro chain1 h; simp [chain_unlink] at h
  | cons cur rest ih =>
    intro chain1 h
    by_cases hk : cur.key = key
    · simp [chain_unlink, hk] at h
      subst h
      have : ¬ key = k2 := fun e => hne e.symm
      simp [chain_find, hk, this]
    · simp [chain_unlink, hk] at h
      obtain ⟨r, hr, rfl⟩ := h
      simp [chain_find, ih r hr]

theorem chain_len_eq_length (chain : List node_t) : chain_len chain = chain.length := by
  induction chain with
  | nil => rfl
  | cons _ _ ih => simp [chain_len, ih]

end ConcurrentHash

/-! Hash table: table lemmas -/

namespace ConcurrentHash

theorem c_abs_of_int {k : Int} (h1 : INT_MIN < k) (h2 : k ≤ INT_MAX) : c_abs k = |k| := by
  unfold INT_MIN at h1
  unfold INT_MAX at h2
  unfold c_abs wrap32
  split
  · rw [abs_of_neg (by assumption)]
    omega
  · rw [abs_of_nonneg (by omega)]

theorem hash_func_range (ht : hashtable_t) (hn : ht.num_buckets = 101) {k : Int}
    (h1 : INT_MIN < k) (h2 : k ≤ INT_MAX) :
    hash_func ht k = |k| % 101 ∧ 0 ≤ hash_func ht k ∧ hash_func ht k < ht.num_buckets := by
  unfold hash_func
  rw [c_abs_of_int h1 h2, hn]
  have h0 : (0 : Int) ≤ |k| := abs_nonneg k
  refine ⟨?_, Int.tmod_nonneg _ h0, Int.tmod_lt_of_pos _ (by norm_num)⟩
  rw [Int.tmod_eq_emod h0 (by norm_num)]

theorem bucket_at_some {ht : hashtable_t} {idx : Int} {chain : List node_t}
    (h : bucket_at ht idx = some chain) :
    0 ≤ idx ∧ idx < 101 ∧ ht.buckets[idx.toNat]? = some chain := by
  unfold bucket_at NUM_BUCKETS at h
  split at h
  · rename_i hr
    exact ⟨hr.1, by simpa using hr.2, h⟩
  · cases h

theorem bucket_at_of_getElem {ht : hashtable_t} {i : Nat} {chain : List node_t}
    (hlen : ht.buckets.length = 101) (h : ht.buckets[i]? = some chain) :
    bucket_at ht (i : Int) = some chain := by
  have hi : i < 101 := by
    have := (List.getElem?_eq_some_iff.mp h).1
    omega
  unfold bucket_at NUM_BUCKETS
  rw [if_pos ⟨by omega, by norm_cast⟩]
  simpa using h

theorem getElem_set_same {ht : hashtable_t} {idx : Int} {chain chain1 : List node_t}
    (h : bucket_at ht idx = some chain) :
    (bucket_set ht idx chain1).buckets[idx.toNat]? = some chain1 := by
  obtain ⟨_, _, h3⟩ := bucket_at_some h
  have hl := (List.getElem?_eq_some_iff.mp h3).1
  simp [bucket_set, List.getElem?_set, hl]

theorem bucket_at_set_same {ht : hashtable_t} {idx : Int} {chain chain1 : List node_t}
    (h : bucket_at ht idx = some chain) :
    bucket_at (bucket_set ht idx chain1) idx = some chain1 := by
  obtain ⟨h1, h2, _⟩ := bucket_at_some h
  have := @getElem_set_same ht idx chain chain1 h
  unfold bucket_at NUM_BUCKETS
  rw [if_pos ⟨h1, by simpa using h2⟩]
  exact this

theorem getElem_set_other (ht : hashtable_t) (idx : Int) (chain1 : List node_t) (j : Nat)
    (hne : idx.toNat ≠ j) :
    (bucket_set ht idx chain1).buckets[j]? = ht.buckets[j]? := by
  simp [bucket_set, List.getElem?_set, hne]

theorem bucket_at_set_other (ht : hashtable_t) {idx idx2 : Int} (chain1 : List node_t)
    (h0 : 0 ≤ idx) (hne : idx ≠ idx2) :
    bucket_at (bucket_set ht idx chain1) idx2 = bucket_at ht idx2 := by
  unfold bucket_at
  by_cases hr : 0 ≤ idx2 ∧ idx2 < NUM_BUCKETS
  · rw [if_pos hr, if_pos hr]
    apply getElem_set_other
    intro e
    apply hne
    have := hr.1
    omega
  · rw [if_neg hr, if_neg hr]

theorem table_inv_init : table_inv hash_init := by
  refine ⟨rfl, rfl, ?_⟩
  intro i chain h
  simp [hash_init, List.getElem?_replicate] at h
  obtain ⟨_, rfl⟩ := h
  simp [chain_keys]

theorem table_inv_set {ht : hashtable_t} (hinv : table_inv ht) {idx : Int}
    {chain chain1 : List node_t} (h : bucket_at ht idx = some chain)
    (hnd : (chain_keys chain1).Nodup)
    (hk : ∀ k ∈ chain_keys chain1, hash_func ht k = idx) :
    table_inv (bucket_set ht idx chain1) := by
  obtain ⟨hn, hl, hc⟩ := hinv
  obtain ⟨h1, h2, h3⟩ := bucket_at_some h
  refine ⟨hn, by simpa [bucket_set] using hl, ?_⟩
  intro i c hi
  by_cases e : idx.toNat = i
  · subst e
    rw [getElem_set_same h] at hi
    cases hi
    refine ⟨hnd, ?_⟩
    intro k hkm
    have := hk k hkm
    show hash_func ht k = _
    rw [this]
    omega
  · rw [getElem_set_other ht idx chain1 i e] at hi
    exact hc i c hi

theorem table_inv_insert {ht ht1 : hashtable_t} {key value : Int} {a : Bool} {r : Int}
    (hinv : table_inv ht) (h : hash_insert ht key value a = some (ht1, r)) :
    table_inv ht1 := by
  unfold hash_insert at h
  simp only at h
  split at h
  · cases h; exact hinv
  · split at h
    · cases h
    · rename_i chain hb
      obtain ⟨h1, _, h3⟩ := bucket_at_some hb
      have hc := hinv.2.2 _ chain h3
      split at h
      · rename_i chain1 hu
        cases h
        have hkeys := chain_update_keys key value chain chain1 hu
        apply table_inv_set hinv hb
        · rw [hkeys]; exact hc.1
        · intro k hk
          rw [hkeys] at hk
          rw [hc.2 k hk]
          omega
      · rename_i hu
        cases h
        rw [chain_update_eq_none] at hu
        apply table_inv_set hinv hb
        · simpa [chain_keys] using And.intro hu hc.1
        · intro k hk
          simp [chain_keys] at hk
          rcases hk with rfl | hk
          · rfl
          · have := hc.2 k (by simpa [chain_keys] using hk)
            rw [this]
            omega

theorem table_inv_delete {ht ht1 : hashtable_t} {key : Int} {r : Int}
    (hinv : table_inv ht) (h : hash_delete ht key = some (ht1, r)) :
    table_inv ht1 := by
  unfold hash_delete at h
  simp only at h
  split at h
  · cases h
  · rename_i chain hb
    obtain ⟨h1, _, h3⟩ := bucket_at_some hb
    have hc := hinv.2.2 _ chain h3
    split at h
    · rename_i chain1 hu
      cases h
      have hsub : List.Sublist (chain_keys chain1) (chain_keys chain) :=
        (chain_unlink_sublist key chain chain1 hu).map _
      apply table_inv_set hinv hb
      · exact hc.1.sublist hsub
      · intro k hk
        rw [hc.2 k (hsub.subset hk)]
        omega
    · cases h; exact hinv

theorem table_inv_run : ∀ (ops : List hash_op) (ht ht1 : hashtable_t),
    table_inv ht → hash_run ops ht = some ht1 → table_inv ht1 := by
  intro ops
  induction ops with
  | nil => intro ht ht1 hinv h; simp [hash_run] at h; subst h; exact hinv
  | cons op ops ih =>
    intro ht ht1 hinv h
    unfold hash_run at h
    split at h
    · cases h
    · rename_i ht2 hs
      apply ih ht2 ht1 _ h
      cases op with
      | insert key value a =>
        simp only [hash_step, Option.map_eq_some'] at hs
        obtain ⟨⟨x, r⟩, hx, rfl⟩ := hs
        exact table_inv_insert hinv hx
      | delete key =>
        simp only [hash_step, Option.map_eq_some'] at hs
        obtain ⟨⟨x, r⟩, hx, rfl⟩ := hs
        exact table_inv_delete hinv hx

theorem table_inv_of_reachable {ht : hashtable_t} (h : Reachable ht) : table_inv ht := by
  obtain ⟨ops, hops⟩ := h
  exact table_inv_run ops hash_init ht table_inv_init hops

theorem present_iff {ht : hashtable_t} (hinv : table_inv ht) (k : Int) :
    present ht k ↔
      ∃ chain, bucket_at ht (hash_func ht k) = some chain ∧ k ∈ chain_keys chain := by
  constructor
  · rintro ⟨chain, hmem, n, hn, rfl⟩
    obtain ⟨i, hi⟩ := List.getElem?_of_mem hmem
    have hk : n.key ∈ chain_keys chain := List.mem_map_of_mem _ hn
    refine ⟨chain, ?_, hk⟩
    rw [(hinv.2.2 i chain hi).2 _ hk]
    exact bucket_at_of_getElem hinv.2.1 hi
  · rintro ⟨chain, hb, hk⟩
    obtain ⟨_, _, h3⟩ := bucket_at_some hb
    simp only [chain_keys, List.mem_map] at hk
    obtain ⟨n, hn, rfl⟩ := hk
    exact ⟨chain, List.getElem?_mem h3, n, hn, rfl⟩

end ConcurrentHash

/-! Hash table: statistics lemmas -/

namespace ConcurrentHash

theorem stats_total_foldl (l : List (List node_t)) : ∀ (acc : stats_t),
    (l.foldl
      (fun acc chain =>
        ({ total := acc.total + chain_len chain
           non_empty_bucket := if chain_len chain > 0 then acc.non_empty_bucket + 1
                               else acc.non_empty_bucket
           max_chain := if chain_len chain > acc.max_chain then chain_len chain
                        else acc.max_chain } : stats_t))
      acc).total = acc.total + (l.map chain_len).sum := by
  induction l with
  | nil => intro acc; simp
  | cons c l ih =>
    intro acc
    rw [List.foldl_cons, ih]
    simp [Nat.add_assoc]

theorem stats_total (ht : hashtable_t) :
    (hash_stats ht).total = (ht.buckets.map chain_len).sum := by
  unfold hash_stats
  rw [stats_total_foldl]
  simp

theorem sum_map_set (l : List (List node_t)) : ∀ (i : Nat) (c c1 : List node_t),
    l[i]? = some c →
    ((l.set i c1).map chain_len).sum + chain_len c = (l.map chain_len).sum + chain_len c1 := by
  induction l with
  | nil => intro i c c1 h; simp at h
  | cons x l ih =>
    intro i c c1 h
    cases i with
    | zero =>
      simp at h
      subst h
      simp
      omega
    | succ i =>
      simp at h
      have := ih i c c1 h
      simp only [List.set_cons_succ, List.map_cons, List.sum_cons]
      omega

theorem stats_total_set {ht : hashtable_t} {idx : Int} {chain : List node_t}
    (chain1 : List node_t) (h : bucket_at ht idx = some chain) :
    (hash_stats (bucket_set ht idx chain1)).total + chain_len chain
      = (hash_stats ht).total + chain_len chain1 := by
  obtain ⟨_, _, h3⟩ := bucket_at_some h
  rw [stats_total, stats_total]
  exact sum_map_set ht.buckets idx.toNat chain chain1 h3

theorem chain_update_eq_map (key value : Int) :
    ∀ (chain chain1 : List node_t), (chain_keys chain).Nodup →
      chain_update key value chain = some chain1 →
      chain1 = chain.map (overwrite key value) := by
  intro chain
  induction chain with
  | nil => intro chain1 _ h; simp [chain_update] at h
  | cons cur rest ih =>
    intro chain1 hnd h
    have hnd2 : cur.key ∉ chain_keys rest ∧ (chain_keys rest).Nodup := by
      simpa [chain_keys] using hnd
    by_cases hk : cur.key = key
    · simp [chain_update, hk] at h
      subst h
      have hrest : rest.map (overwrite key value) = rest := by
        conv_rhs => rw [← List.map_id rest]
        apply List.map_congr_left
        intro n hn
        have : n.key ≠ key := by
          intro e
          apply hnd2.1
          rw [hk, ← e]
          exact List.mem_map_of_mem _ hn
        simp [overwrite, this]
      simp [overwrite, hk, hrest]
    · simp [chain_update, hk] at h
      obtain ⟨r, hr, rfl⟩ := h
      simp [overwrite, hk, ih r hnd2.2 hr]

theorem map_overwrite_absent (key value : Int) (chain : List node_t)
    (h : key ∉ chain_keys chain) : chain.map (overwrite key value) = chain := by
  conv_rhs => rw [← List.map_id chain]
  apply List.map_congr_left
  intro n hn
  have : n.key ≠ key := by
    intro e
    apply h
    rw [← e]
    exact List.mem_map_of_mem _ hn
  simp [overwrite, this]

theorem chain_keys_overwrite (key value : Int) (chain : List node_t) :
    chain_keys (chain.map (overwrite key value)) = chain_keys chain := by
  unfold chain_keys
  rw [List.map_map]
  apply List.map_congr_left
  intro n _
  unfold overwrite
  simp only [Function.comp]
  split <;> rfl

end ConcurrentHash

/-! Hash table: insert, lookup, delete -/

namespace ConcurrentHash

theorem hash_lookup_set_same {ht : hashtable_t} {k : Int} {chain : List node_t}
    (chain1 : List node_t) (out : Int) (h : bucket_at ht (hash_func ht k) = some chain) :
    hash_lookup (bucket_set ht (hash_func ht k) chain1) k out =
      match chain_find k chain1 with
      | some v => some (1, v)
      | none => some (0, out) := by
  have hb := @bucket_at_set_same ht (hash_func ht k) chain chain1 h
  have hf : hash_func (bucket_set ht (hash_func ht k) chain1) k = hash_func ht k := rfl
  unfold hash_lookup
  simp only [hf, hb]

theorem hash_lookup_set_other (ht : hashtable_t) {idx : Int} (chain1 : List node_t)
    (k2 out : Int) (h0 : 0 ≤ idx) (hne : idx ≠ hash_func ht k2) :
    hash_lookup (bucket_set ht idx chain1) k2 out = hash_lookup ht k2 out := by
  have hf : hash_func (bucket_set ht idx chain1) k2 = hash_func ht k2 := rfl
  unfold hash_lookup
  simp only [hf, bucket_at_set_other ht chain1 h0 hne]

theorem hash_lookup_congr {ht : hashtable_t} {k : Int} {chain : List node_t}
    (chain1 : List node_t) (k2 out : Int) (h : bucket_at ht (hash_func ht k) = some chain)
    (hfind : chain_find k2 chain1 = chain_find k2 chain) :
    hash_lookup (bucket_set ht (hash_func ht k) chain1) k2 out = hash_lookup ht k2 out := by
  by_cases e : hash_func ht k = hash_func ht k2
  · have h2 : bucket_at ht (hash_func ht k2) = some chain := e ▸ h
    rw [e, hash_lookup_set_same chain1 out h2, hfind]
    unfold hash_lookup
    simp only [h2]
  · exact hash_lookup_set_other ht chain1 k2 out (bucket_at_some h).1 e

/-- C1: in a table reached from `hash_init` by inserts and deletes, once
`hash_insert(ht, k, v)` has returned 0 (inserted) or 1 (updated),
`hash_lookup(ht, k, &out)` returns 1 and stores `v` in `out`. -/
theorem lookup_after_insert (ht : hashtable_t) (hreach : Reachable ht) (k v : Int)
    (new_node : Bool) (ht1 : hashtable_t) (r out : Int)
    (hins : hash_insert ht k v new_node = some (ht1, r)) (hr : r = 0 ∨ r = 1) :
    hash_lookup ht1 k out = some (1, v) := by
  have _hinv := table_inv_of_reachable hreach
  unfold hash_insert at hins
  simp only at hins
  split at hins
  · cases hins
    omega
  · split at hins
    · cases hins
    · rename_i chain hb
      split at hins
      · rename_i chain1 hu
        cases hins
        rw [hash_lookup_set_same _ out hb, chain_find_update_same k v chain chain1 hu]
      · cases hins
        rw [hash_lookup_set_same _ out hb]
        simp [chain_find]

/-- Witness for C1: updating key 1 of `sample_table` to 30 returns 1 and the
lookup then delivers 30. -/
theorem lookup_after_insert_witness :
    Reachable sample_table ∧
    hash_insert sample_table 1 30 true =
      some (bucket_set hash_init 1 [{ key := 102, value := 20 }, { key := 1, value := 30 }], 1) ∧
    hash_lookup
      (bucket_set hash_init 1 [{ key := 102, value := 20 }, { key := 1, value := 30 }]) 1 0
      = some (1, 30) :=
  ⟨⟨[.insert 1 10 true, .insert 102 20 true], by decide⟩, by decide,
   lookup_after_insert sample_table ⟨[.insert 1 10 true, .insert 102 20 true], by decide⟩
     1 30 true _ 1 0 (by decide) (Or.inr rfl)⟩

theorem sample_reachable : Reachable sample_table :=
  ⟨[.insert 1 10 true, .insert 102 20 true], by decide⟩

/-- C2: in every table reached from `hash_init` by `hash_insert` and
`hash_delete` calls, no chain holds a key twice, every key of chain `i` is
mapped to `i` by `hash_func`, and so two entries with the same key anywhere
in the table are the same entry (same bucket, same position). -/
theorem one_entry_per_key (ht : hashtable_t) (hreach : Reachable ht) :
    (∀ (i : Nat) (chain : List node_t), ht.buckets[i]? = some chain →
      (chain_keys chain).Nodup ∧ ∀ n ∈ chain, hash_func ht n.key = (i : Int)) ∧
    (∀ (i j p q : Nat) (ci cj : List node_t) (n m : node_t),
      ht.buckets[i]? = some ci → ht.buckets[j]? = some cj →
      ci[p]? = some n → cj[q]? = some m → n.key = m.key → i = j ∧ p = q) := by
  have hinv := table_inv_of_reachable hreach
  constructor
  · intro i chain h
    refine ⟨(hinv.2.2 i chain h).1, ?_⟩
    intro n hn
    exact (hinv.2.2 i chain h).2 _ (List.mem_map_of_mem _ hn)
  · intro i j p q ci cj n m hi hj hp hq hkey
    have hni : hash_func ht n.key = (i : Int) :=
      (hinv.2.2 i ci hi).2 _ (List.mem_map_of_mem _ (List.getElem?_mem hp))
    have hmj : hash_func ht m.key = (j : Int) :=
      (hinv.2.2 j cj hj).2 _ (List.mem_map_of_mem _ (List.getElem?_mem hq))
    have hij : i = j := by
      rw [hkey, hmj] at hni
      exact_mod_cast hni.symm
    subst hij
    refine ⟨rfl, ?_⟩
    rw [hi] at hj
    cases hj
    have hnd := (hinv.2.2 i ci hi).1
    obtain ⟨hp1, hp2⟩ := List.getElem?_eq_some_iff.mp hp
    obtain ⟨hq1, hq2⟩ := List.getElem?_eq_some_iff.mp hq
    have hp3 : p < (chain_keys ci).length := by simpa [chain_keys] using hp1
    have hq3 : q < (chain_keys ci).length := by simpa [chain_keys] using hq1
    apply (@List.Nodup.getElem_inj_iff _ _ hnd p hp3 q hq3).mp
    simp only [chain_keys, List.getElem_map, hp2, hq2, hkey]

/-- Witness for C2 on `sample_table`, whose bucket 1 holds keys 102 and 1. -/
theorem one_entry_per_key_witness :
    Reachable sample_table ∧
    ((∀ (i : Nat) (chain : List node_t), sample_table.buckets[i]? = some chain →
      (chain_keys chain).Nodup ∧ ∀ n ∈ chain, hash_func sample_table n.key = (i : Int)) ∧
    (∀ (i j p q : Nat) (ci cj : List node_t) (n m : node_t),
      sample_table.buckets[i]? = some ci → sample_table.buckets[j]? = some cj →
      ci[p]? = some n → cj[q]? = some m → n.key = m.key → i = j ∧ p = q)) :=
  ⟨sample_reachable, one_entry_per_key sample_table sample_reachable⟩

/-- C3, counterexample: key 1 is present in the reachable `sample_table`, yet
`hash_insert` for key 1 returns -1, not 1, when `malloc` yields no node. -/
theorem insert_present_not_updated :
    Reachable sample_table ∧ present sample_table 1 ∧
    hash_insert sample_table 1 30 false = some (sample_table, -1) :=
  ⟨sample_reachable,
   ⟨[{ key := 102, value := 20 }, { key := 1, value := 10 }], by decide,
    { key := 1, value := 10 }, by decide, rfl⟩,
   by decide⟩

/-- C3, amended: in a reachable table, when `malloc` yields a node,
`hash_insert(ht, k, v)` for a present key returns 1, replaces exactly the
value of the entry with key `k` (every chain keeps its nodes in place, so
its key sequence and the `hash_stats` total are unchanged); for an absent key
other than `INT_MIN` it returns 0 and the `hash_stats` total grows by one. -/
theorem insert_present_or_absent (ht : hashtable_t) (hreach : Reachable ht) (k v : Int) :
    (present ht k →
      ∃ ht1, hash_insert ht k v true = some (ht1, 1) ∧
        ht1.buckets = ht.buckets.map (fun chain => chain.map (overwrite k v)) ∧
        ht1.buckets.map chain_keys = ht.buckets.map chain_keys ∧
        (hash_stats ht1).total = (hash_stats ht).total) ∧
    (¬ present ht k → INT_MIN < k → k ≤ INT_MAX →
      ∃ ht1, hash_insert ht k v true = some (ht1, 0) ∧
        (hash_stats ht1).total = (hash_stats ht).total + 1) := by
  have hinv := table_inv_of_reachable hreach
  constructor
  · intro hp
    obtain ⟨chain, hb, hk⟩ := (present_iff hinv k).mp hp
    obtain ⟨h1, _, h3⟩ := bucket_at_some hb
    have hsome : ∃ chain1, chain_update k v chain = some chain1 := by
      cases hu : chain_update k v chain with
      | none => exact absurd hk ((chain_update_eq_none k v chain).mp hu)
      | some c => exact ⟨c, rfl⟩
    obtain ⟨chain1, hu⟩ := hsome
    have hmap := chain_update_eq_map k v chain chain1 (hinv.2.2 _ chain h3).1 hu
    have hbk : (bucket_set ht (hash_func ht k) chain1).buckets
        = ht.buckets.map (fun chain => chain.map (overwrite k v)) := by
      apply List.ext_getElem?
      intro j
      by_cases e : (hash_func ht k).toNat = j
      · subst e
        rw [getElem_set_same hb, List.getElem?_map, h3, hmap]
        rfl
      · rw [getElem_set_other ht _ chain1 j e, List.getElem?_map]
        cases hj : ht.buckets[j]? with
        | none => rfl
        | some cj =>
          have hab : k ∉ chain_keys cj := by
            intro hmem
            have := (hinv.2.2 j cj hj).2 k hmem
            apply e
            omega
          simp [map_overwrite_absent k v cj hab]
    refine ⟨bucket_set ht (hash_func ht k) chain1, ?_, hbk, ?_, ?_⟩
    · unfold hash_insert
      simp only [hb, hu]
      rfl
    · rw [hbk, List.map_map]
      apply List.map_congr_left
      intro c _
      exact chain_keys_overwrite k v c
    · have ht := stats_total_set chain1 hb
      have hl : chain_len chain1 = chain_len chain := by
        rw [chain_len_eq_length, chain_len_eq_length, hmap, List.length_map]
      omega
  · intro hnp hlo hhi
    obtain ⟨_, h0, hlt⟩ := hash_func_range ht hinv.1 hlo hhi
    rw [hinv.1] at hlt
    have hget : ∃ chain, ht.buckets[(hash_func ht k).toNat]? = some chain := by
      have hl : (hash_func ht k).toNat < ht.buckets.length := by
        rw [hinv.2.1]; omega
      exact ⟨_, List.getElem?_eq_getElem hl⟩
    obtain ⟨chain, hg⟩ := hget
    have hb : bucket_at ht (hash_func ht k) = some chain := by
      unfold bucket_at NUM_BUCKETS
      rw [if_pos ⟨h0, by simpa using hlt⟩]
      exact hg
    have hu : chain_update k v chain = none := by
      rw [chain_update_eq_none]
      intro hk
      exact hnp ((present_iff hinv k).mpr ⟨chain, hb, hk⟩)
    refine ⟨bucket_set ht (hash_func ht k) ({ key := k, value := v } :: chain), ?_, ?_⟩
    · unfold hash_insert
      simp only [hb, hu]
      rfl
    · have ht := stats_total_set ({ key := k, value := v } :: chain) hb
      simp only [chain_len] at ht
      omega

/-- Witness for C3 (amended) on `sample_table`: key 1 is present and is
updated; key 2 is absent and is inserted. -/
theorem insert_present_or_absent_witness :
    Reachable sample_table ∧ present sample_table 1 ∧ ¬ present sample_table 2 ∧
    (∃ ht1, hash_insert sample_table 1 30 true = some (ht1, 1) ∧
        ht1.buckets = sample_table.buckets.map (fun chain => chain.map (overwrite 1 30)) ∧
        ht1.buckets.map chain_keys = sample_table.buckets.map chain_keys ∧
        (hash_stats ht1).total = (hash_stats sample_table).total) ∧
    (∃ ht1, hash_insert sample_table 2 30 true = some (ht1, 0) ∧
        (hash_stats ht1).total = (hash_stats sample_table).total + 1) :=
  have hp : present sample_table 1 :=
    ⟨[{ key := 102, value := 20 }, { key := 1, value := 10 }], by decide,
      { key := 1, value := 10 }, by decide, rfl⟩
  have hnp : ¬ present sample_table 2 := by
    rw [present_iff (table_inv_of_reachable sample_reachable)]
    rintro ⟨chain, hb, hk⟩
    have : chain = [] := by
      have h2 : bucket_at sample_table (hash_func sample_table 2) = some [] := by decide
      rw [h2] at hb
      cases hb
      rfl
    subst this
    simp [chain_keys] at hk
  ⟨sample_reachable, hp, hnp,
   (insert_present_or_absent sample_table sample_reachable 1 30).1 hp,
   (insert_present_or_absent sample_table sample_reachable 2 30).2 hnp
     (by decide) (by decide)⟩

/-- C4, the failing input: for `key = INT_MIN` the code computes
`abs(INT_MIN) % 101 = -34`, neither `|key| mod 101 = 34` nor an index of
`buckets[101]`, and the bucket access of insert, lookup and delete is out of
bounds. -/
theorem hash_func_int_min :
    INT_MIN ≤ INT_MIN ∧ INT_MIN ≤ INT_MAX ∧
    hash_func hash_init INT_MIN = -34 ∧ |INT_MIN| % 101 = 34 ∧
    bucket_at hash_init (hash_func hash_init INT_MIN) = none ∧
    hash_insert hash_init INT_MIN 0 true = none ∧
    hash_lookup hash_init INT_MIN 0 = none ∧
    hash_delete hash_init INT_MIN = none := by
  refine ⟨by decide, by decide, by decide, by decide, by decide, by decide, by decide,
    by decide⟩

/-- Every `int` key other than `INT_MIN` is hashed to `|key| mod 101`, an
index of `buckets[101]`. -/
theorem hash_func_in_bounds (ht : hashtable_t) (hreach : Reachable ht) (k : Int)
    (h1 : INT_MIN < k) (h2 : k ≤ INT_MAX) :
    hash_func ht k = |k| % 101 ∧ 0 ≤ hash_func ht k ∧ hash_func ht k < ht.num_buckets ∧
    ∃ chain, bucket_at ht (hash_func ht k) = some chain := by
  have hinv := table_inv_of_reachable hreach
  obtain ⟨ha, h0, hlt⟩ := hash_func_range ht hinv.1 h1 h2
  refine ⟨ha, h0, hlt, ?_⟩
  rw [hinv.1] at hlt
  have hl : (hash_func ht k).toNat < ht.buckets.length := by
    rw [hinv.2.1]; omega
  refine ⟨ht.buckets[(hash_func ht k).toNat], ?_⟩
  unfold bucket_at NUM_BUCKETS
  rw [if_pos ⟨h0, by simpa using hlt⟩]
  exact List.getElem?_eq_getElem hl

/-- What `hash_delete` does for every key whose bucket index is inside the
array (every `int` but `INT_MIN`): 1 for a present key, 0 and an unchanged
table for an absent one; afterwards the key is not found and every other
key looks up as before. -/
theorem hash_delete_spec (ht : hashtable_t) (hreach : Reachable ht) (k : Int) :
    (present ht k → ∃ ht1, hash_delete ht k = some (ht1, 1)) ∧
    (¬ present ht k → INT_MIN < k → k ≤ INT_MAX → hash_delete ht k = some (ht, 0)) ∧
    (∀ ht1 r, hash_delete ht k = some (ht1, r) →
      (r = 1 ↔ present ht k) ∧ (r = 0 ∨ r = 1) ∧
      (∀ out, hash_lookup ht1 k out = some (0, out)) ∧
      (∀ k2 out, k2 ≠ k → hash_lookup ht1 k2 out = hash_lookup ht k2 out)) := by
  have hinv := table_inv_of_reachable hreach
  refine ⟨?_, ?_, ?_⟩
  · intro hp
    obtain ⟨chain, hb, hk⟩ := (present_iff hinv k).mp hp
    cases hu : chain_unlink k chain with
    | none => exact absurd hk ((chain_unlink_eq_none k chain).mp hu)
    | some c =>
      refine ⟨bucket_set ht (hash_func ht k) c, ?_⟩
      unfold hash_delete
      simp only [hb, hu]
  · intro hnp hlo hhi
    obtain ⟨_, _, _, chain, hb⟩ := hash_func_in_bounds ht hreach k hlo hhi
    have hu : chain_unlink k chain = none := by
      rw [chain_unlink_eq_none]
      intro hk
      exact hnp ((present_iff hinv k).mpr ⟨chain, hb, hk⟩)
    unfold hash_delete
    simp only [hb, hu]
  · intro ht1 r h
    unfold hash_delete at h
    simp only at h
    split at h
    · cases h
    · rename_i chain hb
      obtain ⟨_, _, h3⟩ := bucket_at_some hb
      split at h
      · rename_i chain1 hu
        cases h
        have hk : k ∈ chain_keys chain := by
          by_contra hc
          rw [(chain_unlink_eq_none k chain).mpr hc] at hu
          cases hu
        refine ⟨⟨fun _ => (present_iff hinv k).mpr ⟨chain, hb, hk⟩, fun _ => rfl⟩,
          Or.inr rfl, ?_, ?_⟩
        · intro out
          rw [hash_lookup_set_same _ out hb,
            chain_find_unlink_same k chain chain1 (hinv.2.2 _ chain h3).1 hu]
        · intro k2 out hne
          exact hash_lookup_congr chain1 k2 out hb
            (chain_find_unlink_other k k2 hne chain chain1 hu)
      · rename_i hu
        cases h
        have hk : k ∉ chain_keys chain := (chain_unlink_eq_none k chain).mp hu
        refine ⟨⟨fun e => by omega, ?_⟩, Or.inl rfl, ?_, fun _ _ _ => rfl⟩
        · intro hp
          obtain ⟨c2, hb2, hk2⟩ := (present_iff hinv k).mp hp
          rw [hb] at hb2
          cases hb2
          exact absurd hk2 hk
        · intro out
          unfold hash_lookup
          simp only [hb, (chain_find_eq_none k chain).mpr hk]

/-- C5, the failing input: `INT_MIN` is absent from the fresh table, and
`hash_delete(ht, INT_MIN)` does not return 0: its bucket index is -34 and the
access to `buckets[-34]` is out of bounds. -/
theorem delete_int_min :
    Reachable hash_init ∧ ¬ present hash_init INT_MIN ∧
    hash_func hash_init INT_MIN = -34 ∧ hash_delete hash_init INT_MIN = none := by
  refine ⟨⟨[], rfl⟩, ?_, by decide, by decide⟩
  rintro ⟨chain, hmem, n, hn, _⟩
  simp [hash_init] at hmem
  rw [hmem.2] at hn
  cases hn

end ConcurrentHash

/-! Queue: the chain of nodes -/

namespace ConcurrentQueue

theorem cells_cons (heap : List (Option node_t)) (a : Nat) (v : Int)
    (rest : List (Nat × Int)) :
    cells heap ((a, v) :: rest) ↔
      heap[a]? = some (some { value := v, next := rest.head?.map Prod.fst }) ∧ cells heap rest :=
  Iff.rfl

theorem cells_lt {heap : List (Option node_t)} : ∀ (l : List (Nat × Int)), cells heap l →
    ∀ a ∈ l.map Prod.fst, a < heap.length := by
  intro l
  induction l with
  | nil => intro _ a ha; simp at ha
  | cons x l ih =>
    obtain ⟨b, v⟩ := x
    intro h a ha
    simp only [cells] at h
    simp only [List.map_cons, List.mem_cons] at ha
    rcases ha with rfl | ha
    · exact (List.getElem?_eq_some_iff.mp h.1).1
    · exact ih h.2 a ha

theorem cells_set_other {heap : List (Option node_t)} (d : Nat) (x : Option node_t) :
    ∀ (l : List (Nat × Int)), cells heap l → d ∉ l.map Prod.fst → cells (heap.set d x) l := by
  intro l
  induction l with
  | nil => intro _ _; trivial
  | cons y l ih =>
    obtain ⟨b, v⟩ := y
    intro h hd
    simp only [cells] at h ⊢
    simp only [List.map_cons, List.mem_cons, not_or] at hd
    refine ⟨?_, ih h.2 hd.2⟩
    rw [List.getElem?_set, if_neg hd.1]
    exact h.1

theorem cells_last {heap : List (Option node_t)} (t : Nat) (vt : Int) :
    ∀ (l0 : List (Nat × Int)), cells heap (l0 ++ [(t, vt)]) →
      heap[t]? = some (some { value := vt, next := none }) := by
  intro l0
  induction l0 with
  | nil => intro h; simpa [cells] using h
  | cons y l ih =>
    obtain ⟨b, v⟩ := y
    intro h
    rw [List.cons_append, cells_cons] at h
    exact ih h.2

theorem head_append_two (l0 : List (Nat × Int)) (x y : Nat × Int) :
    (l0 ++ [x, y]).head? = (l0 ++ [x]).head? := by
  cases l0 <;> rfl

theorem cells_enqueue (heap : List (Option node_t)) (t : Nat) (vt v : Int) :
    ∀ (l0 : List (Nat × Int)), cells heap (l0 ++ [(t, vt)]) → t ∉ l0.map Prod.fst →
      cells ((heap ++ [some ({ value := v, next := none } : node_t)]).set t
              (some { value := vt, next := some heap.length }))
        (l0 ++ [(t, vt), (heap.length, v)]) := by
  intro l0
  induction l0 with
  | nil =>
    intro h _
    have ht : t < heap.length := cells_lt _ h t (by simp)
    have hne : ¬ t = heap.length := by omega
    simp [cells, List.getElem?_set, hne, List.getElem?_append, ht]
  | cons y l ih =>
    obtain ⟨b, w⟩ := y
    intro h hd
    rw [List.cons_append] at h ⊢
    rw [cells_cons] at h ⊢
    simp only [List.map_cons, List.mem_cons, not_or] at hd
    have hb : b < heap.length := (List.getElem?_eq_some_iff.mp h.1).1
    refine ⟨?_, ih h.2 hd.2⟩
    rw [List.getElem?_set, if_neg hd.1, List.getElem?_append_left hb, head_append_two]
    exact h.1

theorem set_append_last (heap : List (Option node_t)) (a b : Option node_t) :
    (heap ++ [a]).set heap.length b = heap ++ [b] := by
  induction heap with
  | nil => rfl
  | cons x heap ih => simp [ih]

theorem rep_init (junk : node_t) :
    ∃ q0, queue_init (some junk) = some q0 ∧ rep q0 [(0, junk.value)] := by
  refine ⟨{ heap := [some { junk with next := none }], head := some 0, tail := some 0 },
    by simp [queue_init, malloc, store, load], ?_⟩
  exact ⟨by simp, by simp [cells], by simp, rfl, rfl⟩

theorem queue_init_none : queue_init none = none := by
  simp [queue_init, malloc, store]

theorem queue_init_some {outcome : Option node_t} {q0 : queue_t}
    (h : queue_init outcome = some q0) :
    ∃ junk, outcome = some junk ∧ rep q0 [(0, junk.value)] := by
  cases outcome with
  | none => rw [queue_init_none] at h; cases h
  | some junk =>
    obtain ⟨q1, h1, hr⟩ := rep_init junk
    rw [h1] at h
    cases h
    exact ⟨junk, rfl, hr⟩

theorem q_enqueue_none (q : queue_t) (v : Int) : q_enqueue q v none = none := by
  simp [q_enqueue, malloc, store]

theorem rep_enqueue {q : queue_t} {l : List (Nat × Int)} (h : rep q l) (v : Int)
    (junk : node_t) :
    ∃ q1, q_enqueue q v (some junk) = some q1 ∧ rep q1 (l ++ [(q.heap.length, v)]) := by
  obtain ⟨hne, hc, hnd, hh, ht⟩ := h
  obtain ⟨l0, ⟨t, vt⟩, rfl⟩ : ∃ l0 x, l = l0 ++ [x] :=
    ⟨l.dropLast, l.getLast hne, (List.dropLast_append_getLast hne).symm⟩
  · have hcell := cells_last t vt l0 hc
    have htl : t < q.heap.length := (List.getElem?_eq_some_iff.mp hcell).1
    have htail : q.tail = some t := by simpa using ht
    have hnd2 : t ∉ l0.map Prod.fst ∧ (l0.map Prod.fst).Nodup := by
      have := hnd
      simp only [List.map_append, List.map_cons, List.map_nil] at this
      rw [List.nodup_append] at this
      refine ⟨?_, this.1⟩
      intro hm
      exact this.2.2 hm (by simp)
    have hload : load (q.heap ++ [some ({ value := v, next := none } : node_t)]) (some t)
        = some { value := vt, next := none } := by
      simp [load, List.getElem?_append_left htl, hcell]
    have hs1 : store (q.heap ++ [some junk]) (some q.heap.length)
        (fun _ => ({ value := v, next := none } : node_t))
        = some (q.heap ++ [some ({ value := v, next := none } : node_t)]) := by
      simp [store, load, set_append_last]
    have hs2 : store (q.heap ++ [some ({ value := v, next := none } : node_t)]) q.tail
        (fun tn => { tn with next := some q.heap.length })
        = some ((q.heap ++ [some ({ value := v, next := none } : node_t)]).set t
                  (some { value := vt, next := some q.heap.length })) := by
      rw [htail]
      simp only [store, hload]
    refine ⟨{ heap := (q.heap ++ [some ({ value := v, next := none } : node_t)]).set t
                        (some { value := vt, next := some q.heap.length })
              head := q.head
              tail := some q.heap.length }, ?_, ?_⟩
    · unfold q_enqueue malloc
      simp only [hs1, hs2]
    · refine ⟨by simp, ?_, ?_, ?_, ?_⟩
      · have := cells_enqueue q.heap t vt v l0 hc hnd2.1
        simpa using this
      · simp only [List.map_append, List.map_cons, List.map_nil]
        rw [List.nodup_append]
        refine ⟨by simpa using hnd, by simp, ?_⟩
        intro a ha hb
        simp only [List.mem_singleton] at hb
        have := cells_lt _ hc a (by simpa using ha)
        omega
      · show q.head = _
        rw [hh]
        cases l0 <;> rfl
      · simp

theorem rep_dequeue_empty {q : queue_t} {d : Nat} {vd : Int} (h : rep q [(d, vd)])
    (val : Int) : q_dequeue q val = some (q, -1, val) := by
  obtain ⟨_, hc, _, hh, _⟩ := h
  simp only [cells, List.head?_nil, Option.map_none'] at hc
  have hhead : q.head = some d := hh
  unfold q_dequeue
  simp [hhead, load, hc.1]

theorem rep_dequeue_cons {q : queue_t} {d a : Nat} {vd va : Int} {rest : List (Nat × Int)}
    (h : rep q ((d, vd) :: (a, va) :: rest)) (val : Int) :
    q_dequeue q val
      = some ({ heap := q.heap.set d none, head := some a, tail := q.tail }, 0, va) ∧
    rep { heap := q.heap.set d none, head := some a, tail := q.tail } ((a, va) :: rest) := by
  obtain ⟨_, hc, hnd, hh, ht⟩ := h
  simp only [cells, List.head?_cons, Option.map_some'] at hc
  have hhead : q.head = some d := hh
  have hnd2 : d ∉ ((a, va) :: rest).map Prod.fst ∧ (((a, va) :: rest).map Prod.fst).Nodup := by
    simpa using hnd
  constructor
  · unfold q_dequeue
    simp [hhead, load, hc.1, hc.2.1]
  · refine ⟨by simp, ?_, hnd2.2, rfl, ?_⟩
    · exact cells_set_other d none _ (by simpa [cells] using hc.2) hnd2.1
    · show q.tail = _
      rw [ht]
      simp [List.getLast?_cons_cons]

end ConcurrentQueue

/-! Queue: the calls against the list of waiting values -/

namespace ConcurrentQueue

theorem content_append {l : List (Nat × Int)} (hne : l ≠ []) (a : Nat) (v : Int) :
    content (l ++ [(a, v)]) = content l ++ [v] := by
  cases l with
  | nil => exact absurd rfl hne
  | cons x l => simp [content]

theorem allocs_ok_cons (op : queue_op) (ops : List queue_op) :
    allocs_ok (op :: ops) = (allocs_ok [op] && allocs_ok ops) := by
  cases op <;> simp [allocs_ok]

theorem step_refines {q : queue_t} {l : List (Nat × Int)} (h : rep q l) (op : queue_op)
    (hok : allocs_ok [op] = true) :
    ∃ q1 l1, q_step q op = some (q1, (fifo_step (content l) op).2) ∧ rep q1 l1 ∧
      content l1 = (fifo_step (content l) op).1 := by
  cases op with
  | enqueue v outcome =>
    cases outcome with
    | none => simp [allocs_ok] at hok
    | some junk =>
      obtain ⟨q1, he, hr⟩ := rep_enqueue h v junk
      refine ⟨q1, _, ?_, hr, content_append h.1 _ v⟩
      simp [q_step, he, fifo_step]
  | dequeue =>
    match l, h with
    | [], h => exact absurd rfl h.1
    | [(d, vd)], h =>
      refine ⟨q, [(d, vd)], ?_, h, rfl⟩
      simp [q_step, rep_dequeue_empty h 0, fifo_step, content]
    | (d, vd) :: (a, va) :: rest, h =>
      obtain ⟨hd, hr⟩ := rep_dequeue_cons h 0
      refine ⟨_, _, ?_, hr, rfl⟩
      simp [q_step, hd, fifo_step, content]

theorem step_none (q : queue_t) (op : queue_op) (hok : allocs_ok [op] = false) :
    q_step q op = none := by
  cases op with
  | enqueue v outcome =>
    cases outcome with
    | none => simp [q_step, q_enqueue_none]
    | some junk => simp [allocs_ok] at hok
  | dequeue => simp [allocs_ok] at hok

theorem run_refines : ∀ (ops : List queue_op) (q : queue_t) (l : List (Nat × Int)), rep q l →
    allocs_ok ops = true →
    ∃ q1 l1, q_run ops q = some (q1, (fifo_run ops (content l)).2) ∧ rep q1 l1 ∧
      content l1 = (fifo_run ops (content l)).1 := by
  intro ops
  induction ops with
  | nil => intro q l h _; exact ⟨q, l, rfl, h, rfl⟩
  | cons op ops ih =>
    intro q l h hok
    rw [allocs_ok_cons, Bool.and_eq_true] at hok
    obtain ⟨q1, l1, hs, hr1, hc1⟩ := step_refines h op hok.1
    obtain ⟨q2, l2, hrun, hr2, hc2⟩ := ih q1 l1 hr1 hok.2
    refine ⟨q2, l2, ?_, hr2, ?_⟩
    · simp only [q_run, hs, hrun, fifo_run, hc1, Option.map_some']
    · simp only [fifo_run, hc2, hc1]

theorem run_none : ∀ (ops : List queue_op) (q : queue_t) (l : List (Nat × Int)), rep q l →
    allocs_ok ops = false → q_run ops q = none := by
  intro ops
  induction ops with
  | nil => intro q l _ hok; simp [allocs_ok] at hok
  | cons op ops ih =>
    intro q l h hok
    cases h1 : allocs_ok [op] with
    | false => simp only [q_run, step_none q op h1]
    | true =>
      obtain ⟨q1, l1, hs, hr1, _⟩ := step_refines h op h1
      have h2 : allocs_ok ops = false := by
        rw [allocs_ok_cons, h1, Bool.true_and] at hok
        exact hok
      simp only [q_run, hs, ih q1 l1 hr1 h2, Option.map_none']

theorem run_some_allocs {ops : List queue_op} {q : queue_t} {l : List (Nat × Int)}
    {r : queue_t × List Int} (h : rep q l) (hrun : q_run ops q = some r) :
    allocs_ok ops = true := by
  cases hok : allocs_ok ops with
  | true => rfl
  | false =>
    rw [run_none ops q l h hok] at hrun
    cases hrun

theorem init_run_returns_iff (outcome : Option node_t) (ops : List queue_op) :
    (∃ q0 r, queue_init outcome = some q0 ∧ q_run ops q0 = some r) ↔
      (outcome.isSome = true ∧ allocs_ok ops = true) := by
  constructor
  · rintro ⟨q0, r, h0, hrun⟩
    obtain ⟨junk, rfl, hrep⟩ := queue_init_some h0
    exact ⟨rfl, run_some_allocs hrep hrun⟩
  · rintro ⟨h1, h2⟩
    cases outcome with
    | none => cases h1
    | some junk =>
      obtain ⟨q0, h0, hrep⟩ := rep_init junk
      obtain ⟨q1, l1, hrun, _, _⟩ := run_refines ops q0 _ hrep h2
      exact ⟨q0, _, h0, hrun⟩

theorem fifo_conservation : ∀ (ops : List queue_op) (c : List Int),
    (fifo_run ops c).2 ++ (fifo_run ops c).1 = c ++ enqueued ops := by
  intro ops
  induction ops with
  | nil => intro c; simp [fifo_run, enqueued]
  | cons op ops ih =>
    intro c
    cases op with
    | enqueue v outcome => simp [fifo_run, fifo_step, enqueued, ih]
    | dequeue =>
      cases c with
      | nil => simp [fifo_run, fifo_step, enqueued, ih]
      | cons x c => simp [fifo_run, fifo_step, enqueued, ih]

theorem drain_refines : ∀ (fuel : Nat) (q : queue_t) (l : List (Nat × Int)) (val : Int),
    rep q l → (content l).length < fuel →
    ∃ q1 d vd, dequeue_all fuel q val = some (q1, content l) ∧ rep q1 [(d, vd)] := by
  intro fuel
  induction fuel with
  | zero => intro q l val _ hlt; omega
  | succ fuel ih =>
    intro q l val h hlt
    match l, h with
    | [], h => exact absurd rfl h.1
    | [(d, vd)], h =>
      refine ⟨q, d, vd, ?_, h⟩
      simp [dequeue_all, rep_dequeue_empty h val, content]
    | (d, vd) :: (a, va) :: rest, h =>
      obtain ⟨hd, hr⟩ := rep_dequeue_cons h val
      have hlt2 : (content ((a, va) :: rest)).length < fuel := by
        simp [content] at hlt ⊢
        omega
      obtain ⟨q1, d1, vd1, hrun, hr1⟩ := ih _ _ va hr hlt2
      refine ⟨q1, d1, vd1, ?_, hr1⟩
      simp [dequeue_all, hd, hrun, content]

theorem size_loop_cells (heap : List (Option node_t)) : ∀ (l : List (Nat × Int)) (fuel : Nat),
    cells heap l → l.length ≤ fuel →
    size_loop heap fuel (l.head?.map Prod.fst) = some l.length := by
  intro l
  induction l with
  | nil => intro fuel _ _; cases fuel <;> simp [size_loop]
  | cons x l ih =>
    obtain ⟨a, v⟩ := x
    intro fuel hc hlen
    rw [cells_cons] at hc
    cases fuel with
    | zero => simp at hlen
    | succ fuel =>
      have := ih fuel hc.2 (by simpa using hlen)
      simp [size_loop, load, hc.1, this]

theorem q_size_rep {q : queue_t} {l : List (Nat × Int)} (h : rep q l) (fuel : Nat)
    (hlen : (content l).length ≤ fuel) : q_size fuel q = some (content l).length := by
  match l, h with
  | [], h => exact absurd rfl h.1
  | (d, vd) :: rest, h =>
    obtain ⟨_, hc, _, hh, _⟩ := h
    rw [cells_cons] at hc
    have hhead : q.head = some d := hh
    have := size_loop_cells q.heap rest fuel hc.2 (by simpa [content] using hlen)
    simp [q_size, hhead, load, hc.1, this, content]

theorem q_is_empty_rep {q : queue_t} {l : List (Nat × Int)} (h : rep q l) :
    q_is_empty q = some (if content l = [] then 1 else 0) := by
  match l, h with
  | [], h => exact absurd rfl h.1
  | [(d, vd)], h =>
    obtain ⟨_, hc, _, hh, _⟩ := h
    rw [cells_cons] at hc
    have hhead : q.head = some d := hh
    simp [q_is_empty, hhead, load, hc.1, content]
  | (d, vd) :: (a, va) :: rest, h =>
    obtain ⟨_, hc, _, hh, _⟩ := h
    rw [cells_cons] at hc
    have hhead : q.head = some d := hh
    simp [q_is_empty, hhead, load, hc.1, content]

theorem walk_cells (heap : List (Option node_t)) : ∀ (l : List (Nat × Int)),
    cells heap l → l ≠ [] →
    walk heap (l.length - 1) (l.head?.map Prod.fst) = l.getLast?.map Prod.fst := by
  intro l
  induction l with
  | nil => intro _ h; exact absurd rfl h
  | cons x l ih =>
    obtain ⟨a, v⟩ := x
    intro hc _
    rw [cells_cons] at hc
    cases l with
    | nil => simp [walk]
    | cons y l =>
      have := ih hc.2 (by simp)
      simp only [List.length_cons, Nat.add_sub_cancel] at this ⊢
      simp only [walk, List.head?_cons, Option.map_some', load, hc.1, Option.join]
      rw [List.getLast?_cons_cons]
      exact this

theorem rep_poke_head {q : queue_t} {d : Nat} {vd : Int} {rest : List (Nat × Int)}
    (h : rep q ((d, vd) :: rest)) (x : Int) : rep (poke_head q x) ((d, x) :: rest) := by
  obtain ⟨_, hc, hnd, hh, ht⟩ := h
  rw [cells_cons] at hc
  have hhead : q.head = some d := hh
  have hd : d < q.heap.length := (List.getElem?_eq_some_iff.mp hc.1).1
  have hnd2 : d ∉ rest.map Prod.fst ∧ (rest.map Prod.fst).Nodup := by simpa using hnd
  have hp : poke_head q x =
      { q with heap := q.heap.set d
                 (some { value := x, next := rest.head?.map Prod.fst }) } := by
    simp [poke_head, hhead, load, hc.1]
  rw [hp]
  refine ⟨by simp, ?_, by simpa using hnd, hh, ?_⟩
  · rw [cells_cons]
    refine ⟨?_, cells_set_other d _ rest hc.2 hnd2.1⟩
    simp [List.getElem?_set, hd]
  · show q.tail = _
    rw [ht]
    cases rest <;> simp [List.getLast?_cons_cons]

theorem reachable_rep {q : queue_t} (h : Reachable q) : ∃ l, rep q l := by
  obtain ⟨outcome, q0, ops, out, h0, hrun⟩ := h
  obtain ⟨junk, _, hrep0⟩ := queue_init_some h0
  obtain ⟨q1, l1, hr, hrep, _⟩ := run_refines ops q0 _ hrep0 (run_some_allocs hrep0 hrun)
  rw [hr] at hrun
  cases hrun
  exact ⟨l1, hrep⟩

theorem init_run {outcome : Option node_t} {q0 q : queue_t} {ops : List queue_op}
    {outs : List Int} (h0 : queue_init outcome = some q0)
    (hrun : q_run ops q0 = some (q, outs)) :
    ∃ l, rep q l ∧ outs ++ content l = enqueued ops := by
  obtain ⟨junk, _, hrep0⟩ := queue_init_some h0
  obtain ⟨q1, l1, hr, hrep, hc⟩ :=
    run_refines ops q0 _ hrep0 (run_some_allocs hrep0 hrun)
  rw [hr] at hrun
  cases hrun
  have hcons := fifo_conservation ops (content [((0 : Nat), junk.value)])
  have hnil : content [((0 : Nat), junk.value)] = [] := rfl
  rw [hnil, List.nil_append] at hcons
  rw [hnil] at hc
  exact ⟨l1, hrep, by rw [hc]; exact hcons⟩

end ConcurrentQueue

/-! Queue: FIFO delivery, empty dequeue, emptiness test, sentinel -/

namespace ConcurrentQueue

theorem enqueued_length_le (ops : List queue_op) : (enqueued ops).length ≤ ops.length := by
  induction ops with
  | nil => simp [enqueued]
  | cons op ops ih =>
    cases op <;> simp [enqueued] <;> omega

theorem sample_queue_reachable : Reachable sample_queue :=
  ⟨some { value := 7, next := some 3 }, fresh_queue,
    [.enqueue 5 (some { value := 0, next := none })], [], by decide, by decide⟩

/-- C6: a sequence of `q_enqueue` / `q_dequeue` calls on a queue fresh from
`queue_init` runs to completion exactly when every `malloc` returns a node
(on `NULL` the code writes through it); when such a run is followed by
dequeuing until `q_dequeue` returns -1 (any call budget above the number of
calls made suffices), the values delivered by the successful dequeues, in
order, are exactly the enqueued values in enqueue order, and the queue is
left empty. -/
theorem fifo_delivery (outcome : Option node_t) (ops : List queue_op) :
    ((∃ q0 r, queue_init outcome = some q0 ∧ q_run ops q0 = some r) ↔
      (outcome.isSome = true ∧ allocs_ok ops = true)) ∧
    ∀ q0 q outs, queue_init outcome = some q0 → q_run ops q0 = some (q, outs) →
      ∀ (extra : Nat) (val : Int),
        ∃ q1 rest, dequeue_all (ops.length + 1 + extra) q val = some (q1, rest) ∧
          outs ++ rest = enqueued ops ∧
          ∀ val1, q_dequeue q1 val1 = some (q1, -1, val1) := by
  refine ⟨init_run_returns_iff outcome ops, ?_⟩
  intro q0 q outs h0 hrun extra val
  obtain ⟨l, hrep, hcons⟩ := init_run h0 hrun
  have hlen : (content l).length < ops.length + 1 + extra := by
    have h1 := congrArg List.length hcons
    rw [List.length_append] at h1
    have h2 := enqueued_length_le ops
    omega
  obtain ⟨q1, d, vd, hd, hr1⟩ := drain_refines _ q l val hrep hlen
  exact ⟨q1, content l, hd, hcons, fun val1 => rep_dequeue_empty hr1 val1⟩

/-- Witness for C6: `sample_calls` on `fresh_queue` deliver 5 and leave
`busy_queue`; draining it delivers 6 and 7. -/
theorem fifo_delivery_witness :
    queue_init (some { value := 7, next := some 3 }) = some fresh_queue ∧
    q_run sample_calls fresh_queue = some (busy_queue, [5]) ∧
    enqueued sample_calls = [5, 6, 7] ∧
    ∃ q1 rest, dequeue_all (sample_calls.length + 1 + 0) busy_queue 0 = some (q1, rest) ∧
      [5] ++ rest = enqueued sample_calls ∧
      ∀ val1, q_dequeue q1 val1 = some (q1, -1, val1) :=
  ⟨by decide, by decide, by decide,
   (fifo_delivery (some { value := 7, next := some 3 }) sample_calls).2
     fresh_queue busy_queue [5] (by decide) (by decide) 0 0⟩

/-- C7: in a reachable queue state the head node is allocated; when it has no
successor `q_dequeue` returns -1, leaves `*value` as it was and the queue
(head, tail, every node) unchanged; otherwise it returns 0, stores the value
of the head's successor in `*value` and makes that successor the head. -/
theorem dequeue_cases (q : queue_t) (hreach : Reachable q) (val : Int) :
    ∃ d hn, q.head = some d ∧ load q.heap (some d) = some hn ∧
      (hn.next = none → q_dequeue q val = some (q, -1, val)) ∧
      (∀ a, hn.next = some a →
        ∃ an q1, load q.heap (some a) = some an ∧
          q_dequeue q val = some (q1, 0, an.value) ∧ q1.head = some a ∧ q1.tail = q.tail) := by
  obtain ⟨l, h⟩ := reachable_rep hreach
  match l, h with
  | [], h => exact absurd rfl h.1
  | [(d, vd)], h =>
    have hc := h.2.1
    rw [cells_cons] at hc
    refine ⟨d, { value := vd, next := none }, h.2.2.2.1, ?_, ?_, ?_⟩
    · simp [load, hc.1]
    · intro _; exact rep_dequeue_empty h val
    · intro a ha; cases ha
  | (d, vd) :: (a, va) :: rest, h =>
    have hc := h.2.1
    rw [cells_cons, cells_cons] at hc
    refine ⟨d, { value := vd, next := some a }, h.2.2.2.1, ?_, ?_, ?_⟩
    · simp [load, hc.1]
    · intro hn; cases hn
    · intro b hb
      cases hb
      exact ⟨{ value := va, next := rest.head?.map Prod.fst }, _, by simp [load, hc.2.1],
        (rep_dequeue_cons h val).1, rfl, rfl⟩

/-- Witness for C7 on `sample_queue` (dummy at address 0, one node holding 5
at address 1). -/
theorem dequeue_cases_witness :
    Reachable sample_queue ∧
    ∃ d hn, sample_queue.head = some d ∧ load sample_queue.heap (some d) = some hn ∧
      (hn.next = none → q_dequeue sample_queue 0 = some (sample_queue, -1, 0)) ∧
      (∀ a, hn.next = some a →
        ∃ an q1, load sample_queue.heap (some a) = some an ∧
          q_dequeue sample_queue 0 = some (q1, 0, an.value) ∧ q1.head = some a ∧
          q1.tail = sample_queue.tail) :=
  ⟨sample_queue_reachable, dequeue_cases sample_queue sample_queue_reachable 0⟩

/-- C8: whenever `queue_init` returns (its `malloc` gave a node) `q_is_empty`
returns 1 right after it; after any sequence of `q_enqueue` / `q_dequeue`
calls that returns (which it does exactly when every `malloc` gives a node)
`q_is_empty` returns 1 exactly when the number of enqueues equals the number
of successful dequeues and 0 exactly when fewer values were dequeued than
enqueued, and it returns 1 exactly when `q_size` returns 0 (`q_size` being
the difference of the two numbers). -/
theorem is_empty_iff_counts (outcome : Option node_t) (ops : List queue_op) :
    ((∃ q0 r, queue_init outcome = some q0 ∧ q_run ops q0 = some r) ↔
      (outcome.isSome = true ∧ allocs_ok ops = true)) ∧
    ∀ q0, queue_init outcome = some q0 →
      q_is_empty q0 = some 1 ∧
      ∀ q outs, q_run ops q0 = some (q, outs) →
        ∃ b, q_is_empty q = some b ∧
          (b = 1 ↔ (enqueued ops).length = outs.length) ∧
          (b = 0 ↔ outs.length < (enqueued ops).length) ∧
          ∀ extra : Nat, ∃ n, q_size (ops.length + extra) q = some n ∧
            (b = 1 ↔ n = 0) ∧ n + outs.length = (enqueued ops).length := by
  refine ⟨init_run_returns_iff outcome ops, ?_⟩
  intro q0 h0
  constructor
  · obtain ⟨junk, _, hrep0⟩ := queue_init_some h0
    rw [q_is_empty_rep hrep0]
    rfl
  · intro q outs hrun
    obtain ⟨l, hrep, hcons⟩ := init_run h0 hrun
    have h1 := congrArg List.length hcons
    rw [List.length_append] at h1
    have h2 := enqueued_length_le ops
    refine ⟨_, q_is_empty_rep hrep, ?_, ?_, ?_⟩
    · by_cases e : content l = []
      · simp only [e, if_true, true_iff]
        rw [e] at h1
        simpa using h1.symm
      · have : 0 < (content l).length := List.length_pos.mpr e
        simp only [e, if_false]
        constructor
        · intro h0; norm_num at h0
        · intro h0; omega
    · by_cases e : content l = []
      · simp only [e, if_true]
        rw [e] at h1
        simp only [List.length_nil] at h1
        constructor
        · intro h0; norm_num at h0
        · intro h0; omega
      · have : 0 < (content l).length := List.length_pos.mpr e
        simp only [e, if_false, true_iff]
        omega
    · intro extra
      refine ⟨(content l).length, q_size_rep hrep _ (by omega), ?_, by omega⟩
      by_cases e : content l = []
      · simp [e]
      · simp [e]

/-- Witness for C8: `fresh_queue` is empty; after `sample_calls` three values
were enqueued and one dequeued, `q_is_empty` returns 0 and `q_size` 2. -/
theorem is_empty_iff_counts_witness :
    queue_init (some { value := 7, next := some 3 }) = some fresh_queue ∧
    q_run sample_calls fresh_queue = some (busy_queue, [5]) ∧
    q_is_empty fresh_queue = some 1 ∧ q_is_empty busy_queue = some 0 ∧
    q_size (sample_calls.length + 0) busy_queue = some 2 ∧
    ∃ b, q_is_empty busy_queue = some b ∧
      (b = 1 ↔ (enqueued sample_calls).length = [(5 : Int)].length) ∧
      (b = 0 ↔ [(5 : Int)].length < (enqueued sample_calls).length) ∧
      ∀ extra : Nat, ∃ n, q_size (sample_calls.length + extra) busy_queue = some n ∧
        (b = 1 ↔ n = 0) ∧ n + [(5 : Int)].length = (enqueued sample_calls).length :=
  ⟨by decide, by decide, by decide, by decide, by decide,
   ((is_empty_iff_counts (some { value := 7, next := some 3 }) sample_calls).2
     fresh_queue (by decide)).2 busy_queue [5] (by decide)⟩

/-- C9: in every reachable queue state `head` points to an allocated node,
`tail` points to an allocated node whose `next` is `NULL`, following `next`
from `head` reaches `tail`, `head = tail` when `q_is_empty` holds, and the
value stored in the head node is never delivered: overwriting it changes no
value delivered by any later sequence of calls (a sequence that returns
exactly when every `malloc` in it gives a node). -/
theorem sentinel_invariant (q : queue_t) (hreach : Reachable q) :
    (∃ d hn, q.head = some d ∧ load q.heap (some d) = some hn) ∧
    (∃ t tn, q.tail = some t ∧ load q.heap (some t) = some tn ∧ tn.next = none) ∧
    (∃ k, walk q.heap k q.head = q.tail) ∧
    (q_is_empty q = some 1 → q.head = q.tail) ∧
    (∀ (x : Int) (ops : List queue_op),
      (q_run ops (poke_head q x)).map Prod.snd = (q_run ops q).map Prod.snd ∧
      (q_run ops q).isSome = allocs_ok ops) := by
  obtain ⟨l, h⟩ := reachable_rep hreach
  obtain ⟨hne, hc, hnd, hh, ht⟩ := h
  have hrep : rep q l := ⟨hne, hc, hnd, hh, ht⟩
  obtain ⟨l0, ⟨t, vt⟩, rfl⟩ : ∃ l0 x, l = l0 ++ [x] :=
    ⟨l.dropLast, l.getLast hne, (List.dropLast_append_getLast hne).symm⟩
  have hlast := cells_last t vt l0 hc
  have htail : q.tail = some t := by simpa using ht
  refine ⟨?_, ⟨t, { value := vt, next := none }, htail, by simp [load, hlast], rfl⟩,
    ?_, ?_, ?_⟩
  · cases l0 with
    | nil =>
      exact ⟨t, { value := vt, next := none }, hh, by simp [load, hlast]⟩
    | cons y l0 =>
      obtain ⟨d, vd⟩ := y
      rw [List.cons_append, cells_cons] at hc
      exact ⟨d, { value := vd, next := (l0 ++ [(t, vt)]).head?.map Prod.fst }, hh,
        by simp [load, hc.1]⟩
  · refine ⟨(l0 ++ [(t, vt)]).length - 1, ?_⟩
    rw [hh, ht]
    exact walk_cells q.heap _ hc hne
  · intro he
    rw [q_is_empty_rep hrep] at he
    cases l0 with
    | nil => rw [hh, ht]; rfl
    | cons y l0 =>
      exfalso
      have hcn : content (y :: l0 ++ [(t, vt)]) ≠ [] := by simp [content]
      rw [if_neg hcn] at he
      norm_num at he
  · intro x ops
    cases l0 with
    | nil =>
      have hp := rep_poke_head hrep x
      cases hok : allocs_ok ops with
      | true =>
        obtain ⟨_, _, hr1, _, _⟩ := run_refines ops _ _ hp hok
        obtain ⟨_, _, hr2, _, _⟩ := run_refines ops _ _ hrep hok
        rw [hr1, hr2]
        exact ⟨rfl, rfl⟩
      | false =>
        rw [run_none ops _ _ hp hok, run_none ops _ _ hrep hok]
        exact ⟨rfl, rfl⟩
    | cons y l0 =>
      obtain ⟨d, vd⟩ := y
      have hp := rep_poke_head hrep x
      cases hok : allocs_ok ops with
      | true =>
        obtain ⟨_, _, hr1, _, _⟩ := run_refines ops _ _ hp hok
        obtain ⟨_, _, hr2, _, _⟩ := run_refines ops _ _ hrep hok
        rw [hr1, hr2]
        exact ⟨rfl, rfl⟩
      | false =>
        rw [run_none ops _ _ hp hok, run_none ops _ _ hrep hok]
        exact ⟨rfl, rfl⟩

/-- Witness for C9 on `sample_queue`. -/
theorem sentinel_invariant_witness :
    Reachable sample_queue ∧
    (∃ d hn, sample_queue.head = some d ∧ load sample_queue.heap (some d) = some hn) ∧
    (∃ t tn, sample_queue.tail = some t ∧ load sample_queue.heap (some t) = some tn ∧
      tn.next = none) ∧
    (∃ k, walk sample_queue.heap k sample_queue.head = sample_queue.tail) ∧
    (q_is_empty sample_queue = some 1 → sample_queue.head = sample_queue.tail) ∧
    (∀ (x : Int) (ops : List queue_op),
      (q_run ops (poke_head sample_queue x)).map Prod.snd
        = (q_run ops sample_queue).map Prod.snd ∧
      (q_run ops sample_queue).isSome = allocs_ok ops) :=
  ⟨sample_queue_reachable, sentinel_invariant sample_queue sample_queue_reachable⟩

end ConcurrentQueue

/-! Sloppy counter: conservation of the total -/

namespace SloppyCounter

theorem add32_eq {a b r : Int} (h : add32 a b = some r) :
    r = a + b ∧ INT_MIN ≤ r ∧ r ≤ INT_MAX := by
  unfold add32 at h
  split at h
  · rename_i hr
    cases h
    exact ⟨rfl, hr.1, hr.2⟩
  · cases h

theorem sum_set (l : List Int) : ∀ (i : Nat) (a x : Int), l[i]? = some a →
    (l.set i x).sum = l.sum - a + x := by
  induction l with
  | nil => intro i a x h; simp at h
  | cons y l ih =>
    intro i a x h
    cases i with
    | zero =>
      simp at h
      subst h
      simp only [List.set_cons_zero, List.sum_cons]
      omega
    | succ i =>
      simp at h
      have := ih i a x h
      simp only [List.set_cons_succ, List.sum_cons, this]
      omega

theorem update_total {c c1 : sloppy_counter_t} {cpu_id amt : Int}
    (h : sloppy_update c cpu_id amt = some c1) :
    c1.global + c1.«local».sum = c.global + c.«local».sum + amt ∧
    c1.«local».length = c.«local».length ∧ c1.threshold = c.threshold := by
  unfold sloppy_update at h
  split at h
  · split at h
    · cases h
    · rename_i l hl
      split at h
      · cases h
      · rename_i l1 hadd
        obtain ⟨e1, _, _⟩ := add32_eq hadd
        split at h
        · split at h
          · cases h
          · rename_i g1 hg
            obtain ⟨e2, _, _⟩ := add32_eq hg
            cases h
            simp only [List.length_set, and_true]
            rw [sum_set _ _ l 0 hl]
            omega
        · cases h
          simp only [List.length_set, and_true]
          rw [sum_set _ _ l l1 hl]
          omega
  · cases h

theorem run_total : ∀ (calls : List (Int × Int)) (c c1 : sloppy_counter_t),
    sloppy_run calls c = some c1 →
    c1.global + c1.«local».sum = c.global + c.«local».sum + amounts calls ∧
    c1.«local».length = c.«local».length ∧ c1.threshold = c.threshold := by
  intro calls
  induction calls with
  | nil =>
    intro c c1 h
    simp only [sloppy_run, Option.some.injEq] at h
    subst h
    simp [amounts]
  | cons call calls ih =>
    obtain ⟨cpu_id, amt⟩ := call
    intro c c1 h
    simp only [sloppy_run] at h
    split at h
    · cases h
    · rename_i c2 hu
      obtain ⟨h1, h2, h3⟩ := update_total hu
      obtain ⟨h4, h5, h6⟩ := ih c2 c1 h
      refine ⟨?_, by omega, by rw [h6, h3]⟩
      simp only [amounts, List.map_cons, List.sum_cons] at h4 ⊢
      omega

theorem precise_loop_sum (c : sloppy_counter_t) : ∀ (n i : Nat) (total r : Int),
    precise_loop c n i total = some r →
    r = total + ((c.«local».drop i).take n).sum := by
  intro n
  induction n with
  | zero =>
    intro i total r h
    simp only [precise_loop, Option.some.injEq] at h
    subst h
    simp
  | succ n ih =>
    intro i total r h
    simp only [precise_loop] at h
    split at h
    · cases h
    · rename_i l hl
      split at h
      · cases h
      · rename_i t1 hadd
        obtain ⟨e1, _, _⟩ := add32_eq hadd
        have e2 := ih (i + 1) t1 r h
        have hi : i < c.«local».length := (List.getElem?_eq_some_iff.mp hl).1
        have hd : c.«local».drop i = l :: c.«local».drop (i + 1) := by
          rw [List.drop_eq_getElem_cons hi]
          congr 1
          exact (List.getElem?_eq_some_iff.mp hl).2
        rw [hd, List.take_succ_cons, List.sum_cons]
        omega

theorem precise_loop_fits (c : sloppy_counter_t) : ∀ (n i : Nat),
    i + n ≤ c.«local».length →
    (∀ m, i < m → m ≤ i + n →
      INT_MIN ≤ c.global + (c.«local».take m).sum ∧
      c.global + (c.«local».take m).sum ≤ INT_MAX) →
    precise_loop c n i (c.global + (c.«local».take i).sum)
      = some (c.global + (c.«local».take (i + n)).sum) := by
  intro n
  induction n with
  | zero => intro i _ _; rfl
  | succ n ih =>
    intro i hlen hfit
    have hi : i < c.«local».length := by omega
    have htake := List.sum_take_succ c.«local» i hi
    have hadd : add32 (c.global + (c.«local».take i).sum) c.«local»[i]
        = some (c.global + (c.«local».take (i + 1)).sum) := by
      have := hfit (i + 1) (by omega) (by omega)
      unfold add32
      rw [htake] at this ⊢
      rw [if_pos ⟨by omega, by omega⟩]
      congr 1
      omega
    have hrec := ih (i + 1) (by omega) (fun m h1 h2 => hfit m (by omega) (by omega))
    simp only [precise_loop, List.getElem?_eq_getElem hi, hadd]
    rw [hrec]
    have hidx : i + 1 + n = i + (n + 1) := by omega
    rw [hidx]

theorem update_defined_of_nonneg {c : sloppy_counter_t} {cpu_id amt : Int}
    (hlen : c.«local».length = NUM_CPUS) (hg : 0 ≤ c.global) (hl : ∀ x ∈ c.«local», 0 ≤ x)
    (hcpu : 0 ≤ cpu_id ∧ cpu_id < NUM_CPUS) (hamt : 0 ≤ amt)
    (hfit : c.global + c.«local».sum + amt ≤ INT_MAX) :
    ∃ c1, sloppy_update c cpu_id amt = some c1 ∧ 0 ≤ c1.global ∧ ∀ x ∈ c1.«local», 0 ≤ x := by
  have hi : cpu_id.toNat < c.«local».length := by
    rw [hlen]
    have := hcpu.2
    omega
  have hmem : c.«local»[cpu_id.toNat] ∈ c.«local» := List.getElem_mem hi
  have h0 := hl _ hmem
  have hle := List.single_le_sum hl _ hmem
  have hmin : INT_MIN ≤ 0 := by decide
  have hadd : add32 c.«local»[cpu_id.toNat] amt = some (c.«local»[cpu_id.toNat] + amt) := by
    unfold add32
    rw [if_pos ⟨by omega, by omega⟩]
  unfold sloppy_update
  rw [if_pos hcpu]
  simp only [List.getElem?_eq_getElem hi, hadd]
  by_cases hth : c.«local»[cpu_id.toNat] + amt ≥ c.threshold
  · have hadd2 : add32 c.global (c.«local»[cpu_id.toNat] + amt)
        = some (c.global + (c.«local»[cpu_id.toNat] + amt)) := by
      unfold add32
      rw [if_pos ⟨by omega, by omega⟩]
    rw [if_pos hth]
    simp only [hadd2]
    refine ⟨_, rfl, by show 0 ≤ c.global + _; omega, ?_⟩
    intro x hx
    rcases List.mem_or_eq_of_mem_set hx with h | h
    · exact hl x h
    · omega
  · rw [if_neg hth]
    refine ⟨_, rfl, hg, ?_⟩
    intro x hx
    rcases List.mem_or_eq_of_mem_set hx with h | h
    · exact hl x h
    · omega

theorem run_defined_of_nonneg : ∀ (calls : List (Int × Int)) (c : sloppy_counter_t),
    c.«local».length = NUM_CPUS → 0 ≤ c.global → (∀ x ∈ c.«local», 0 ≤ x) →
    (∀ call ∈ calls, (0 ≤ call.1 ∧ call.1 < NUM_CPUS) ∧ 0 ≤ call.2) →
    c.global + c.«local».sum + amounts calls ≤ INT_MAX →
    ∃ c1, sloppy_run calls c = some c1 ∧ 0 ≤ c1.global ∧ ∀ x ∈ c1.«local», 0 ≤ x := by
  intro calls
  induction calls with
  | nil => intro c _ hg hl _ _; exact ⟨c, rfl, hg, hl⟩
  | cons call calls ih =>
    obtain ⟨cpu_id, amt⟩ := call
    intro c hlen hg hl hcalls hfit
    have hc := hcalls (cpu_id, amt) (List.mem_cons_self _ _)
    have hrest : 0 ≤ amounts calls := by
      unfold amounts
      apply List.sum_nonneg
      intro x hx
      obtain ⟨call, hm, rfl⟩ := List.mem_map.mp hx
      exact (hcalls call (List.mem_cons_of_mem _ hm)).2
    simp only [amounts, List.map_cons, List.sum_cons] at hfit
    have hrest2 : 0 ≤ (calls.map Prod.snd).sum := hrest
    obtain ⟨c1, hu, hg1, hl1⟩ :=
      update_defined_of_nonneg hlen hg hl hc.1 hc.2 (by omega)
    obtain ⟨ht, hlen1, _⟩ := update_total hu
    obtain ⟨c2, hr, hg2, hl2⟩ := ih c1 (hlen1.trans hlen) hg1 hl1
      (fun call hm => hcalls call (List.mem_cons_of_mem _ hm))
      (by simp only [amounts]; omega)
    exact ⟨c2, by simp only [sloppy_run, hu, hr], hg2, hl2⟩

/-- C10: in every state reached from `sloppy_init(c, S)` by `sloppy_update`
calls (valid `cpu_id`, no `int` overflow) `global` plus the sum of the
`local[i]` equals the sum of all amounts passed; `sloppy_get_precise` can
return no other value, and it does return that sum whenever none of its
partial sums `global + local[0] + ... + local[i]` overflows. -/
theorem precise_is_sum (S : Int) (calls : List (Int × Int)) (c : sloppy_counter_t)
    (hrun : sloppy_run calls (sloppy_init S) = some c) :
    c.global + c.«local».sum = amounts calls ∧
    (∀ r, sloppy_get_precise c = some r → r = amounts calls) ∧
    ((∀ m, m ≤ NUM_CPUS →
        INT_MIN ≤ c.global + (c.«local».take m).sum ∧
        c.global + (c.«local».take m).sum ≤ INT_MAX) →
      sloppy_get_precise c = some (amounts calls)) := by
  obtain ⟨hsum, hlen, _⟩ := run_total calls _ c hrun
  have hlen4 : c.«local».length = NUM_CPUS := by
    rw [hlen]
    simp [sloppy_init]
  have hinit : (sloppy_init S).global + (sloppy_init S).«local».sum = 0 := by
    simp [sloppy_init]
  rw [hinit, zero_add] at hsum
  refine ⟨hsum, ?_, ?_⟩
  · intro r hr
    have := precise_loop_sum c NUM_CPUS 0 c.global r hr
    rw [List.drop_zero, ← hlen4, List.take_length] at this
    omega
  · intro hfit
    have := precise_loop_fits c NUM_CPUS 0 (by omega) (fun m _ h2 => hfit m (by omega))
    simp only [List.take_zero, List.sum_nil, add_zero, zero_add] at this
    unfold sloppy_get_precise
    rw [this, ← hlen4, List.take_length, hsum]

/-- Witness for C10: threshold 5 and the calls (0,3), (1,4), (0,3), (3,10),
(2,-4) leave `global = 16`, `local = [0, 4, -4, 0]`; the amounts sum to 16. -/
theorem precise_is_sum_witness :
    sloppy_run [(0, 3), (1, 4), (0, 3), (3, 10), (2, -4)] (sloppy_init 5)
      = some { global := 16, «local» := [0, 4, -4, 0], threshold := 5 } ∧
    amounts [(0, 3), (1, 4), (0, 3), (3, 10), (2, -4)] = 16 ∧
    sloppy_get_precise { global := 16, «local» := [0, 4, -4, 0], threshold := 5 } = some 16 ∧
    (16 : Int) + ([0, 4, -4, 0] : List Int).sum
      = amounts [(0, 3), (1, 4), (0, 3), (3, 10), (2, -4)] :=
  ⟨by decide, by decide, by decide,
   (precise_is_sum 5 [(0, 3), (1, 4), (0, 3), (3, 10), (2, -4)]
      { global := 16, «local» := [0, 4, -4, 0], threshold := 5 } (by decide)).1⟩

/-- For non-negative amounts whose sum fits an `int` and valid `cpu_id`s the
calls and the precise read are all defined, and the read is the sum. -/
theorem precise_returns_sum_of_nonneg (S : Int) (calls : List (Int × Int))
    (hcalls : ∀ call ∈ calls, (0 ≤ call.1 ∧ call.1 < NUM_CPUS) ∧ 0 ≤ call.2)
    (hfit : amounts calls ≤ INT_MAX) :
    ∃ c, sloppy_run calls (sloppy_init S) = some c ∧
      sloppy_get_precise c = some (amounts calls) := by
  obtain ⟨c, hrun, hg, hl⟩ := run_defined_of_nonneg calls (sloppy_init S) rfl (le_refl _)
    (by intro x hx; simp [sloppy_init] at hx; omega) hcalls
    (by simpa [sloppy_init] using hfit)
  obtain ⟨hsum, hlen, _⟩ := run_total calls _ c hrun
  have hlen4 : c.«local».length = NUM_CPUS := by
    rw [hlen]
    simp [sloppy_init]
  have hinit : (sloppy_init S).global + (sloppy_init S).«local».sum = 0 := by
    simp [sloppy_init]
  rw [hinit, zero_add] at hsum
  have hmin : INT_MIN ≤ 0 := by decide
  have hpart : ∀ m, 0 < m → m ≤ 0 + NUM_CPUS →
      INT_MIN ≤ c.global + (c.«local».take m).sum ∧
      c.global + (c.«local».take m).sum ≤ INT_MAX := by
    intro m _ _
    have h1 : 0 ≤ (c.«local».take m).sum :=
      List.sum_nonneg (fun x hx => hl x (List.mem_of_mem_take hx))
    have h2 : 0 ≤ (c.«local».drop m).sum :=
      List.sum_nonneg (fun x hx => hl x (List.mem_of_mem_drop hx))
    have h3 := List.sum_take_add_sum_drop c.«local» m
    constructor <;> omega
  have := precise_loop_fits c NUM_CPUS 0 (by omega) hpart
  simp only [List.take_zero, List.sum_nil, add_zero, zero_add] at this
  refine ⟨c, hrun, ?_⟩
  unfold sloppy_get_precise
  rw [this, ← hlen4, List.take_length, hsum]

end SloppyCounter

/-! Hash table: allocation failure and frame of insert and delete -/

namespace ConcurrentHash

/-- C15: `hash_insert` returns -1 exactly when `malloc` yields no node: with
no node it returns -1 and the table is the one before the call, and with a
node it returns 0 or 1, never -1. -/
theorem insert_fails_iff_no_node (ht : hashtable_t) (k v : Int) :
    hash_insert ht k v false = some (ht, -1) ∧
    (∀ ht1 r, hash_insert ht k v true = some (ht1, r) → r = 0 ∨ r = 1) ∧
    (∀ new_node ht1 r, hash_insert ht k v new_node = some (ht1, r) →
      (r = -1 ↔ new_node = false) ∧ (r = -1 → ht1 = ht)) := by
  have hfalse : hash_insert ht k v false = some (ht, -1) := by
    simp [hash_insert]
  have htrue : ∀ ht1 r, hash_insert ht k v true = some (ht1, r) → r = 0 ∨ r = 1 := by
    intro ht1 r h
    unfold hash_insert at h
    simp only [Bool.true_eq_false, if_false] at h
    split at h
    · cases h
    · split at h
      · cases h; exact Or.inr rfl
      · cases h; exact Or.inl rfl
  refine ⟨hfalse, htrue, ?_⟩
  intro a ht1 r h
  cases a with
  | false =>
    rw [hfalse] at h
    cases h
    exact ⟨⟨fun _ => rfl, fun _ => rfl⟩, fun _ => rfl⟩
  | true =>
    have := htrue ht1 r h
    constructor
    · constructor
      · intro e; omega
      · intro e; cases e
    · intro e; omega

/-- C18: a `hash_insert(ht, k, v)` or `hash_delete(ht, k)` that returns leaves
every bucket other than bucket `hash_func(k)` as it was; an insert that
returns 0 puts the new entry at the head of that bucket's chain, in front of
the old chain; and `hash_lookup` of any other key gives what it gave before
the call. -/
theorem insert_delete_frame (ht : hashtable_t) (k : Int) :
    (∀ v new_node ht1 r, hash_insert ht k v new_node = some (ht1, r) →
      (∀ j : Nat, (hash_func ht k).toNat ≠ j → ht1.buckets[j]? = ht.buckets[j]?) ∧
      (r = 0 → ∃ chain, bucket_at ht (hash_func ht k) = some chain ∧
        bucket_at ht1 (hash_func ht k) = some ({ key := k, value := v } :: chain)) ∧
      (∀ k2 out, k2 ≠ k → hash_lookup ht1 k2 out = hash_lookup ht k2 out)) ∧
    (∀ ht1 r, hash_delete ht k = some (ht1, r) →
      (∀ j : Nat, (hash_func ht k).toNat ≠ j → ht1.buckets[j]? = ht.buckets[j]?) ∧
      (∀ k2 out, k2 ≠ k → hash_lookup ht1 k2 out = hash_lookup ht k2 out)) := by
  constructor
  · intro v a ht1 r h
    unfold hash_insert at h
    simp only at h
    split at h
    · cases h
      exact ⟨fun _ _ => rfl, fun e => by omega, fun _ _ _ => rfl⟩
    · split at h
      · cases h
      · rename_i chain hb
        split at h
        · rename_i chain1 hu
          cases h
          refine ⟨fun j hj => getElem_set_other ht _ chain1 j hj, fun e => by omega, ?_⟩
          intro k2 out hne
          exact hash_lookup_congr chain1 k2 out hb
            (chain_find_update_other k v k2 hne chain chain1 hu)
        · cases h
          refine ⟨fun j hj => getElem_set_other ht _ _ j hj,
            fun _ => ⟨chain, hb, bucket_at_set_same hb⟩, ?_⟩
          intro k2 out hne
          apply hash_lookup_congr _ k2 out hb
          have : ¬ k = k2 := fun e => hne e.symm
          simp [chain_find, this]
  · intro ht1 r h
    unfold hash_delete at h
    simp only at h
    split at h
    · cases h
    · rename_i chain hb
      split at h
      · rename_i chain1 hu
        cases h
        refine ⟨fun j hj => getElem_set_other ht _ chain1 j hj, ?_⟩
        intro k2 out hne
        exact hash_lookup_congr chain1 k2 out hb
          (chain_find_unlink_other k k2 hne chain chain1 hu)
      · cases h
        exact ⟨fun _ _ => rfl, fun _ _ _ => rfl⟩

/-- Witness for C18 on `sample_table`: inserting the absent key 203 (bucket 1,
like keys 102 and 1) returns 0 and puts it in front of the old chain. -/
theorem insert_delete_frame_witness :
    hash_insert sample_table 203 7 true
      = some (bucket_set sample_table 1
          [{ key := 203, value := 7 }, { key := 102, value := 20 }, { key := 1, value := 10 }],
          0) ∧
    (∀ j : Nat, (hash_func sample_table 203).toNat ≠ j →
      (bucket_set sample_table 1
        [{ key := 203, value := 7 }, { key := 102, value := 20 },
          { key := 1, value := 10 }]).buckets[j]? = sample_table.buckets[j]?) ∧
    (∀ k2 out, k2 ≠ 203 →
      hash_lookup (bucket_set sample_table 1
        [{ key := 203, value := 7 }, { key := 102, value := 20 },
          { key := 1, value := 10 }]) k2 out = hash_lookup sample_table k2 out) :=
  ⟨by decide,
   ((insert_delete_frame sample_table 203).1 7 true _ 0 (by decide)).1,
   ((insert_delete_frame sample_table 203).1 7 true _ 0 (by decide)).2.2⟩

end ConcurrentHash

/-! Sloppy counter: one update, bounds on the slots -/

namespace SloppyCounter

theorem update_cases {c c1 : sloppy_counter_t} {cpu_id amt : Int}
    (h : sloppy_update c cpu_id amt = some c1) :
    ∃ l, (0 ≤ cpu_id ∧ cpu_id < NUM_CPUS) ∧ c.«local»[cpu_id.toNat]? = some l ∧
      (INT_MIN ≤ l + amt ∧ l + amt ≤ INT_MAX) ∧
      ((c.threshold ≤ l + amt ∧
          (INT_MIN ≤ c.global + (l + amt) ∧ c.global + (l + amt) ≤ INT_MAX) ∧
          c1 = { c with global := c.global + (l + amt),
                        «local» := c.«local».set cpu_id.toNat 0 }) ∨
       (l + amt < c.threshold ∧
          c1 = { c with «local» := c.«local».set cpu_id.toNat (l + amt) })) := by
  unfold sloppy_update at h
  split at h
  · rename_i hcpu
    split at h
    · cases h
    · rename_i l hl
      split at h
      · cases h
      · rename_i l1 hadd
        obtain ⟨e1, h1, h2⟩ := add32_eq hadd
        subst e1
        refine ⟨l, hcpu, hl, ⟨h1, h2⟩, ?_⟩
        split at h
        · rename_i hth
          split at h
          · cases h
          · rename_i g1 hg
            obtain ⟨e2, h3, h4⟩ := add32_eq hg
            subst e2
            cases h
            exact Or.inl ⟨hth, ⟨h3, h4⟩, rfl⟩
        · rename_i hth
          cases h
          exact Or.inr ⟨by omega, rfl⟩
  · cases h

theorem update_defined {c : sloppy_counter_t} {cpu_id amt l : Int}
    (hcpu : 0 ≤ cpu_id ∧ cpu_id < NUM_CPUS) (hl : c.«local»[cpu_id.toNat]? = some l)
    (hfit : INT_MIN ≤ l + amt ∧ l + amt ≤ INT_MAX)
    (hflush : c.threshold ≤ l + amt →
      INT_MIN ≤ c.global + (l + amt) ∧ c.global + (l + amt) ≤ INT_MAX) :
    ∃ c1, sloppy_update c cpu_id amt = some c1 := by
  have hadd : add32 l amt = some (l + amt) := by
    unfold add32
    rw [if_pos hfit]
  unfold sloppy_update
  rw [if_pos hcpu]
  simp only [hl, hadd]
  by_cases hth : l + amt ≥ c.threshold
  · have hadd2 : add32 c.global (l + amt) = some (c.global + (l + amt)) := by
      unfold add32
      rw [if_pos (hflush hth)]
    rw [if_pos hth]
    simp only [hadd2]
    exact ⟨_, rfl⟩
  · rw [if_neg hth]
    exact ⟨_, rfl⟩

theorem update_nonneg {c c1 : sloppy_counter_t} {cpu_id amt : Int}
    (h : sloppy_update c cpu_id amt = some c1) (hamt : 0 ≤ amt)
    (hl : ∀ x ∈ c.«local», 0 ≤ x) :
    c.global ≤ c1.global ∧ ∀ x ∈ c1.«local», 0 ≤ x := by
  obtain ⟨l, _, hlg, _, hc⟩ := update_cases h
  have hl0 : 0 ≤ l := hl l (List.getElem?_mem hlg)
  rcases hc with ⟨_, _, rfl⟩ | ⟨_, rfl⟩
  · refine ⟨by show c.global ≤ c.global + (l + amt); omega, ?_⟩
    intro x hx
    rcases List.mem_or_eq_of_mem_set hx with hm | hm
    · exact hl x hm
    · omega
  · refine ⟨le_refl _, ?_⟩
    intro x hx
    rcases List.mem_or_eq_of_mem_set hx with hm | hm
    · exact hl x hm
    · omega

theorem update_below {c c1 : sloppy_counter_t} {cpu_id amt : Int}
    (h : sloppy_update c cpu_id amt = some c1) (hthr : 1 ≤ c.threshold)
    (hl : ∀ x ∈ c.«local», x ≤ c.threshold - 1) :
    ∀ x ∈ c1.«local», x ≤ c1.threshold - 1 := by
  obtain ⟨l, _, _, _, hc⟩ := update_cases h
  rcases hc with ⟨_, _, rfl⟩ | ⟨_, rfl⟩
  · intro x hx
    rcases List.mem_or_eq_of_mem_set hx with hm | hm
    · exact hl x hm
    · show x ≤ c.threshold - 1
      omega
  · intro x hx
    rcases List.mem_or_eq_of_mem_set hx with hm | hm
    · exact hl x hm
    · show x ≤ c.threshold - 1
      omega

theorem update_global_range {c c1 : sloppy_counter_t} {cpu_id amt : Int}
    (h : sloppy_update c cpu_id amt = some c1)
    (hg : INT_MIN ≤ c.global ∧ c.global ≤ INT_MAX) :
    INT_MIN ≤ c1.global ∧ c1.global ≤ INT_MAX := by
  obtain ⟨l, _, _, _, hc⟩ := update_cases h
  rcases hc with ⟨_, hr, rfl⟩ | ⟨_, rfl⟩
  · exact hr
  · exact hg

theorem run_bounds : ∀ (calls : List (Int × Int)) (c c1 : sloppy_counter_t),
    sloppy_run calls c = some c1 → (∀ call ∈ calls, 0 ≤ call.2) → 1 ≤ c.threshold →
    (∀ x ∈ c.«local», 0 ≤ x ∧ x ≤ c.threshold - 1) →
    c.global ≤ c1.global ∧ ∀ x ∈ c1.«local», 0 ≤ x ∧ x ≤ c.threshold - 1 := by
  intro calls
  induction calls with
  | nil =>
    intro c c1 h _ _ hl
    simp only [sloppy_run, Option.some.injEq] at h
    subst h
    exact ⟨le_refl _, hl⟩
  | cons call calls ih =>
    obtain ⟨cpu_id, amt⟩ := call
    intro c c1 h hnn hthr hl
    simp only [sloppy_run] at h
    split at h
    · cases h
    · rename_i c2 hu
      have hamt : 0 ≤ amt := hnn (cpu_id, amt) (List.mem_cons_self _ _)
      obtain ⟨hg2, hl2⟩ := update_nonneg hu hamt (fun x hx => (hl x hx).1)
      have hb2 := update_below hu hthr (fun x hx => (hl x hx).2)
      have ht2 : c2.threshold = c.threshold := (update_total hu).2.2
      obtain ⟨hg3, hl3⟩ := ih c2 c1 h (fun call hm => hnn call (List.mem_cons_of_mem _ hm))
        (by rw [ht2]; exact hthr) (fun x hx => ⟨hl2 x hx, hb2 x hx⟩)
      rw [ht2] at hl3
      exact ⟨le_trans hg2 hg3, hl3⟩

theorem run_global_range : ∀ (calls : List (Int × Int)) (c c1 : sloppy_counter_t),
    sloppy_run calls c = some c1 → (INT_MIN ≤ c.global ∧ c.global ≤ INT_MAX) →
    INT_MIN ≤ c1.global ∧ c1.global ≤ INT_MAX := by
  intro calls
  induction calls with
  | nil =>
    intro c c1 h hg
    simp only [sloppy_run, Option.some.injEq] at h
    subst h
    exact hg
  | cons call calls ih =>
    obtain ⟨cpu_id, amt⟩ := call
    intro c c1 h hg
    simp only [sloppy_run] at h
    split at h
    · cases h
    · rename_i c2 hu
      exact ih c2 c1 h (update_global_range hu hg)

theorem sum_bounds (B : Int) : ∀ (l : List Int), (∀ x ∈ l, 0 ≤ x ∧ x ≤ B) →
    0 ≤ l.sum ∧ l.sum ≤ l.length * B := by
  intro l
  induction l with
  | nil => intro _; simp
  | cons y l ih =>
    intro h
    have hy := h y (List.mem_cons_self _ _)
    have := ih (fun x hx => h x (List.mem_cons_of_mem _ hx))
    simp only [List.sum_cons, List.length_cons, Nat.cast_add, Nat.cast_one]
    constructor
    · omega
    · have : ((l.length : Int) + 1) * B = l.length * B + B := by ring
      omega

theorem precise_of_nonneg {c : sloppy_counter_t} (hlen : c.«local».length = NUM_CPUS)
    (hg : INT_MIN ≤ c.global) (hl : ∀ x ∈ c.«local», 0 ≤ x)
    (hfit : c.global + c.«local».sum ≤ INT_MAX) :
    sloppy_get_precise c = some (c.global + c.«local».sum) := by
  have hpart : ∀ m, 0 < m → m ≤ 0 + NUM_CPUS →
      INT_MIN ≤ c.global + (c.«local».take m).sum ∧
      c.global + (c.«local».take m).sum ≤ INT_MAX := by
    intro m _ _
    have h1 : 0 ≤ (c.«local».take m).sum :=
      List.sum_nonneg (fun x hx => hl x (List.mem_of_mem_take hx))
    have h2 : 0 ≤ (c.«local».drop m).sum :=
      List.sum_nonneg (fun x hx => hl x (List.mem_of_mem_drop hx))
    have h3 := List.sum_take_add_sum_drop c.«local» m
    constructor <;> omega
  have := precise_loop_fits c NUM_CPUS 0 (by omega) hpart
  simp only [List.take_zero, List.sum_nil, add_zero, zero_add] at this
  unfold sloppy_get_precise
  rw [this, ← hlen, List.take_length]

theorem precise_eq_total {c : sloppy_counter_t} {r : Int}
    (hlen : c.«local».length = NUM_CPUS) (h : sloppy_get_precise c = some r) :
    r = c.global + c.«local».sum := by
  have := precise_loop_sum c NUM_CPUS 0 c.global r h
  rw [List.drop_zero, ← hlen, List.take_length] at this
  exact this

end SloppyCounter

/-! Sloppy counter: frame of an update, gap between the two reads, monotonicity -/

namespace SloppyCounter

theorem run_nonneg : ∀ (calls : List (Int × Int)) (c c1 : sloppy_counter_t),
    sloppy_run calls c = some c1 → (∀ call ∈ calls, 0 ≤ call.2) →
    (∀ x ∈ c.«local», 0 ≤ x) →
    c.global ≤ c1.global ∧ ∀ x ∈ c1.«local», 0 ≤ x := by
  intro calls
  induction calls with
  | nil =>
    intro c c1 h _ hl
    simp only [sloppy_run, Option.some.injEq] at h
    subst h
    exact ⟨le_refl _, hl⟩
  | cons call calls ih =>
    obtain ⟨cpu_id, amt⟩ := call
    intro c c1 h hnn hl
    simp only [sloppy_run] at h
    split at h
    · cases h
    · rename_i c2 hu
      have hamt : 0 ≤ amt := hnn (cpu_id, amt) (List.mem_cons_self _ _)
      obtain ⟨hg2, hl2⟩ := update_nonneg hu hamt hl
      obtain ⟨hg3, hl3⟩ := ih c2 c1 h (fun call hm => hnn call (List.mem_cons_of_mem _ hm)) hl2
      exact ⟨le_trans hg2 hg3, hl3⟩

theorem init_local_zero (S : Int) : ∀ x ∈ (sloppy_init S).«local», x = 0 := by
  intro x hx
  simp [sloppy_init] at hx
  exact hx.2

theorem amounts_unit (calls : List (Int × Int)) (h : ∀ call ∈ calls, call.2 = 1) :
    amounts calls = calls.length := by
  induction calls with
  | nil => simp [amounts]
  | cons call calls ih =>
    have h1 := h call (List.mem_cons_self _ _)
    have h2 := ih (fun call hm => h call (List.mem_cons_of_mem _ hm))
    simp only [amounts, List.map_cons, List.sum_cons, List.length_cons, Nat.cast_add,
      Nat.cast_one] at h2 ⊢
    omega

theorem gap_bounds {S : Int} (hS : 1 ≤ S) {calls : List (Int × Int)}
    (hnn : ∀ call ∈ calls, 0 ≤ call.2) {c : sloppy_counter_t}
    (hrun : sloppy_run calls (sloppy_init S) = some c) :
    c.«local».length = NUM_CPUS ∧ 0 ≤ c.global ∧
    (∀ x ∈ c.«local», 0 ≤ x ∧ x ≤ S - 1) ∧
    0 ≤ c.«local».sum ∧ c.«local».sum ≤ NUM_CPUS * (S - 1) ∧
    c.global + c.«local».sum = amounts calls := by
  obtain ⟨hsum, hlen, _⟩ := run_total calls _ c hrun
  have hlen4 : c.«local».length = NUM_CPUS := hlen.trans rfl
  have hinit : ∀ x ∈ (sloppy_init S).«local», 0 ≤ x ∧ x ≤ (sloppy_init S).threshold - 1 := by
    intro x hx
    have := init_local_zero S x hx
    have ht : (sloppy_init S).threshold = S := rfl
    omega
  obtain ⟨hg, hb⟩ := run_bounds calls _ c hrun hnn hS hinit
  have hb2 : ∀ x ∈ c.«local», 0 ≤ x ∧ x ≤ S - 1 := hb
  have hs := sum_bounds (S - 1) c.«local» hb2
  rw [hlen4] at hs
  have h0 : (sloppy_init S).global + (sloppy_init S).«local».sum = 0 := by
    simp [sloppy_init]
  rw [h0, zero_add] at hsum
  exact ⟨hlen4, hg, hb2, hs.1, hs.2, hsum⟩

/-- C17: for a counter with its four slots and a valid `cpu_id`, the call
`sloppy_update(c, cpu_id, amt)` is defined whenever its additions stay inside
the `int` range, and its result is: when `local[cpu_id] + amt >= threshold`,
`global` grown by that whole new local value and `local[cpu_id] = 0`;
otherwise `global` unchanged and `local[cpu_id]` grown by `amt`; in both
cases every other slot and the threshold are unchanged. -/
theorem update_frame (c : sloppy_counter_t) (cpu_id amt : Int)
    (hlen : c.«local».length = NUM_CPUS) (hcpu : 0 ≤ cpu_id ∧ cpu_id < NUM_CPUS) :
    ∃ l, c.«local»[cpu_id.toNat]? = some l ∧
      ((INT_MIN ≤ l + amt ∧ l + amt ≤ INT_MAX) →
        (c.threshold ≤ l + amt →
          INT_MIN ≤ c.global + (l + amt) ∧ c.global + (l + amt) ≤ INT_MAX) →
        ∃ c1, sloppy_update c cpu_id amt = some c1) ∧
      (∀ c1, sloppy_update c cpu_id amt = some c1 →
        (c.threshold ≤ l + amt →
          c1.global = c.global + (l + amt) ∧ c1.«local»[cpu_id.toNat]? = some 0) ∧
        (l + amt < c.threshold →
          c1.global = c.global ∧ c1.«local»[cpu_id.toNat]? = some (l + amt)) ∧
        (∀ j, j ≠ cpu_id.toNat → c1.«local»[j]? = c.«local»[j]?) ∧
        c1.threshold = c.threshold) := by
  have hi : cpu_id.toNat < c.«local».length := by
    rw [hlen]
    have := hcpu.2
    omega
  refine ⟨c.«local»[cpu_id.toNat], List.getElem?_eq_getElem hi, ?_, ?_⟩
  · intro hfit hflush
    exact update_defined hcpu (List.getElem?_eq_getElem hi) hfit hflush
  · intro c1 h
    obtain ⟨l, _, hlg, _, hc⟩ := update_cases h
    rw [List.getElem?_eq_getElem hi] at hlg
    cases hlg
    rcases hc with ⟨hth, _, rfl⟩ | ⟨hth, rfl⟩
    · refine ⟨fun _ => ⟨rfl, by simp [List.getElem?_set, hi]⟩, fun hlt => by omega, ?_, rfl⟩
      intro j hj
      simp [List.getElem?_set, Ne.symm hj]
    · refine ⟨fun hge => by omega, fun _ => ⟨rfl, by simp [List.getElem?_set, hi]⟩, ?_, rfl⟩
      intro j hj
      simp [List.getElem?_set, Ne.symm hj]

/-- Witness for C17: threshold 5, `local = [0, 4, 0, 0]`, `global = 10`; adding
3 to slot 1 reaches the threshold, so 7 goes to `global` and slot 1 is reset. -/
theorem update_frame_witness :
    sloppy_update { global := 10, «local» := [0, 4, 0, 0], threshold := 5 } 1 3
      = some { global := 17, «local» := [0, 0, 0, 0], threshold := 5 } ∧
    ∃ l, ([0, 4, 0, 0] : List Int)[(1 : Int).toNat]? = some l ∧
      ((INT_MIN ≤ l + 3 ∧ l + 3 ≤ INT_MAX) →
        ((5 : Int) ≤ l + 3 → INT_MIN ≤ 10 + (l + 3) ∧ 10 + (l + 3) ≤ INT_MAX) →
        ∃ c1, sloppy_update { global := 10, «local» := [0, 4, 0, 0], threshold := 5 } 1 3
          = some c1) ∧
      (∀ c1, sloppy_update { global := 10, «local» := [0, 4, 0, 0], threshold := 5 } 1 3
          = some c1 →
        ((5 : Int) ≤ l + 3 →
          c1.global = 10 + (l + 3) ∧ c1.«local»[(1 : Int).toNat]? = some 0) ∧
        (l + 3 < 5 →
          c1.global = 10 ∧ c1.«local»[(1 : Int).toNat]? = some (l + 3)) ∧
        (∀ j, j ≠ (1 : Int).toNat → c1.«local»[j]? = ([0, 4, 0, 0] : List Int)[j]?) ∧
        c1.threshold = 5) :=
  ⟨by decide,
   update_frame { global := 10, «local» := [0, 4, 0, 0], threshold := 5 } 1 3 rfl
     (by decide)⟩

/-- C19: for a threshold `S >= 1` and calls with non-negative amounts, in
every state reached from `sloppy_init(c, S)` each slot holds a value between
0 and `S - 1`; so whatever `sloppy_get_precise` returns is at least
`sloppy_get_approx` and exceeds it by at most `NUM_CPUS * (S - 1)`, and
`sloppy_get_precise` does return (the sum of the amounts) when that sum fits
an `int`. -/
theorem slots_below_threshold (S : Int) (hS : 1 ≤ S) (calls : List (Int × Int))
    (hnn : ∀ call ∈ calls, 0 ≤ call.2) (c : sloppy_counter_t)
    (hrun : sloppy_run calls (sloppy_init S) = some c) :
    (∀ i, i < NUM_CPUS → ∃ x, c.«local»[i]? = some x ∧ 0 ≤ x ∧ x ≤ S - 1) ∧
    (∀ r, sloppy_get_precise c = some r →
      0 ≤ r - sloppy_get_approx c ∧ r - sloppy_get_approx c ≤ NUM_CPUS * (S - 1)) ∧
    (amounts calls ≤ INT_MAX → sloppy_get_precise c = some (amounts calls)) := by
  obtain ⟨hlen, hg, hb, hs0, hs1, hsum⟩ := gap_bounds hS hnn hrun
  refine ⟨?_, ?_, ?_⟩
  · intro i hi
    have hi2 : i < c.«local».length := by rw [hlen]; exact hi
    exact ⟨c.«local»[i], List.getElem?_eq_getElem hi2, hb _ (List.getElem_mem hi2)⟩
  · intro r hr
    have := precise_eq_total hlen hr
    unfold sloppy_get_approx
    constructor <;> omega
  · intro hfit
    have hmin : INT_MIN ≤ 0 := by decide
    rw [← hsum]
    exact precise_of_nonneg hlen (by omega) (fun x hx => (hb x hx).1) (by omega)

/-- Witness for C19: threshold 3, the amounts 2, 2, 0, 2 on slots 0, 1, 1, 0. -/
theorem slots_below_threshold_witness :
    sloppy_run [(0, 2), (1, 2), (1, 0), (0, 2)] (sloppy_init 3)
      = some { global := 4, «local» := [0, 2, 0, 0], threshold := 3 } ∧
    (∀ i, i < NUM_CPUS → ∃ x, ([0, 2, 0, 0] : List Int)[i]? = some x ∧ 0 ≤ x ∧ x ≤ 3 - 1) ∧
    (∀ r, sloppy_get_precise { global := 4, «local» := [0, 2, 0, 0], threshold := 3 } = some r →
      0 ≤ r - sloppy_get_approx { global := 4, «local» := [0, 2, 0, 0], threshold := 3 } ∧
      r - sloppy_get_approx { global := 4, «local» := [0, 2, 0, 0], threshold := 3 }
        ≤ NUM_CPUS * (3 - 1)) ∧
    (amounts [(0, 2), (1, 2), (1, 0), (0, 2)] ≤ INT_MAX →
      sloppy_get_precise { global := 4, «local» := [0, 2, 0, 0], threshold := 3 }
        = some (amounts [(0, 2), (1, 2), (1, 0), (0, 2)])) :=
  ⟨by decide,
   slots_below_threshold 3 (by decide) [(0, 2), (1, 2), (1, 0), (0, 2)] (by decide)
     { global := 4, «local» := [0, 2, 0, 0], threshold := 3 } (by decide)⟩

/-- C11, counterexample: with threshold 2 and one unit increment on each of
the four slots the precise read is 4 and the approximate read is 0, a gap of
`4 * (S - 1)`, not less; with threshold 0 the gap is 0 while `4 * (S - 1)`
is negative. -/
theorem approx_gap_not_strict :
    sloppy_run [(0, 1), (1, 1), (2, 1), (3, 1)] (sloppy_init 2)
      = some { global := 0, «local» := [1, 1, 1, 1], threshold := 2 } ∧
    sloppy_get_precise { global := 0, «local» := [1, 1, 1, 1], threshold := 2 } = some 4 ∧
    sloppy_get_approx { global := 0, «local» := [1, 1, 1, 1], threshold := 2 } = 0 ∧
    ¬ ((4 : Int) - 0 < 4 * (2 - 1)) ∧
    sloppy_run [(0, 1)] (sloppy_init 0)
      = some { global := 1, «local» := [0, 0, 0, 0], threshold := 0 } ∧
    sloppy_get_precise { global := 1, «local» := [0, 0, 0, 0], threshold := 0 } = some 1 ∧
    sloppy_get_approx { global := 1, «local» := [0, 0, 0, 0], threshold := 0 } = 1 ∧
    ¬ ((1 : Int) - 1 ≤ 4 * (0 - 1)) := by
  refine ⟨by decide, by decide, by decide, by decide, by decide, by decide, by decide,
    by decide⟩

/-- C11, amended: for a counter with 4 slots and a threshold `S >= 1`, after
any sequence of unit increments the value of `sloppy_get_precise` is at least
the value of `sloppy_get_approx` and exceeds it by at most `4 * (S - 1)`; the
precise read is the number of increments whenever that number fits an
`int`. -/
theorem approx_gap_unit (S : Int) (hS : 1 ≤ S) (calls : List (Int × Int))
    (hunit : ∀ call ∈ calls, call.2 = 1) (c : sloppy_counter_t)
    (hrun : sloppy_run calls (sloppy_init S) = some c) :
    (∀ r, sloppy_get_precise c = some r →
      0 ≤ r - sloppy_get_approx c ∧ r - sloppy_get_approx c ≤ 4 * (S - 1)) ∧
    ((calls.length : Int) ≤ INT_MAX → sloppy_get_precise c = some (calls.length : Int)) := by
  have hnn : ∀ call ∈ calls, 0 ≤ call.2 := by
    intro call hm
    rw [hunit call hm]
    decide
  obtain ⟨hlen, hg, hb, hs0, hs1, hsum⟩ := gap_bounds hS hnn hrun
  have h4 : ((NUM_CPUS : Nat) : Int) = 4 := rfl
  rw [h4] at hs1
  rw [amounts_unit calls hunit] at hsum
  constructor
  · intro r hr
    have := precise_eq_total hlen hr
    unfold sloppy_get_approx
    constructor <;> omega
  · intro hfit
    have hmin : INT_MIN ≤ 0 := by decide
    rw [← hsum]
    exact precise_of_nonneg hlen (by omega) (fun x hx => (hb x hx).1) (by omega)

/-- Witness for C11 (amended): threshold 2, one unit increment per slot; the
gap 4 equals the bound `4 * (2 - 1)`. -/
theorem approx_gap_unit_witness :
    sloppy_run [(0, 1), (1, 1), (2, 1), (3, 1)] (sloppy_init 2)
      = some { global := 0, «local» := [1, 1, 1, 1], threshold := 2 } ∧
    (∀ r, sloppy_get_precise { global := 0, «local» := [1, 1, 1, 1], threshold := 2 } = some r →
      0 ≤ r - sloppy_get_approx { global := 0, «local» := [1, 1, 1, 1], threshold := 2 } ∧
      r - sloppy_get_approx { global := 0, «local» := [1, 1, 1, 1], threshold := 2 }
        ≤ 4 * (2 - 1)) ∧
    ((([(0, 1), (1, 1), (2, 1), (3, 1)] : List (Int × Int)).length : Int) ≤ INT_MAX →
      sloppy_get_precise { global := 0, «local» := [1, 1, 1, 1], threshold := 2 }
        = some (([(0, 1), (1, 1), (2, 1), (3, 1)] : List (Int × Int)).length : Int)) :=
  ⟨by decide,
   approx_gap_unit 2 (by decide) [(0, 1), (1, 1), (2, 1), (3, 1)] (by decide)
     { global := 0, «local» := [1, 1, 1, 1], threshold := 2 } (by decide)⟩

/-- C12: for any threshold, along a sequence of `sloppy_update` calls with
positive amounts on a counter fresh from `sloppy_init`, the value of
`sloppy_get_approx` at a later point is never below its value at an earlier
point; in particular a single update never lowers `global`. -/
theorem approx_monotone (S : Int) (calls1 calls2 : List (Int × Int))
    (hpos : ∀ call ∈ calls1 ++ calls2, 0 < call.2) (c1 c2 : sloppy_counter_t)
    (h1 : sloppy_run calls1 (sloppy_init S) = some c1)
    (h2 : sloppy_run calls2 c1 = some c2) :
    sloppy_get_approx c1 ≤ sloppy_get_approx c2 := by
  have hinit : ∀ x ∈ (sloppy_init S).«local», 0 ≤ x := by
    intro x hx
    rw [init_local_zero S x hx]
  have hnn1 : ∀ call ∈ calls1, 0 ≤ call.2 := fun call hm =>
    le_of_lt (hpos call (List.mem_append_left _ hm))
  have hnn2 : ∀ call ∈ calls2, 0 ≤ call.2 := fun call hm =>
    le_of_lt (hpos call (List.mem_append_right _ hm))
  obtain ⟨_, hl1⟩ := run_nonneg calls1 _ c1 h1 hnn1 hinit
  exact (run_nonneg calls2 c1 c2 h2 hnn2 hl1).1

/-- Witness for C12: threshold 3; `global` is 0 after the first two calls and
4 after the next two. -/
theorem approx_monotone_witness :
    sloppy_run [(0, 2), (1, 1)] (sloppy_init 3)
      = some { global := 0, «local» := [2, 1, 0, 0], threshold := 3 } ∧
    sloppy_run [(0, 2), (1, 1)] { global := 0, «local» := [2, 1, 0, 0], threshold := 3 }
      = some { global := 4, «local» := [0, 2, 0, 0], threshold := 3 } ∧
    sloppy_get_approx { global := 0, «local» := [2, 1, 0, 0], threshold := 3 }
      ≤ sloppy_get_approx { global := 4, «local» := [0, 2, 0, 0], threshold := 3 } :=
  ⟨by decide, by decide,
   approx_monotone 3 [(0, 2), (1, 1)] [(0, 2), (1, 1)] (by decide)
     { global := 0, «local» := [2, 1, 0, 0], threshold := 3 }
     { global := 4, «local» := [0, 2, 0, 0], threshold := 3 } (by decide) (by decide)⟩

end SloppyCounter

/-! Sloppy counter: unit increments in multiples of the threshold -/

namespace SloppyCounter

theorem slot_count_cons (cpu_id amt : Int) (calls : List (Int × Int)) (i : Nat) :
    slot_count ((cpu_id, amt) :: calls) i
      = slot_count calls i + if cpu_id = (i : Int) then 1 else 0 := by
  unfold slot_count
  rw [List.map_cons, List.count_cons]
  simp

theorem slot_value : ∀ (calls : List (Int × Int)) (c c1 : sloppy_counter_t),
    sloppy_run calls c = some c1 → (∀ call ∈ calls, call.2 = 1) → 1 ≤ c.threshold →
    (∀ x ∈ c.«local», 0 ≤ x ∧ x ≤ c.threshold - 1) →
    ∀ (i : Nat) (x0 : Int), c.«local»[i]? = some x0 →
      c1.«local»[i]? = some ((x0 + slot_count calls i) % c.threshold) := by
  intro calls
  induction calls with
  | nil =>
    intro c c1 h _ hthr hl i x0 hx
    simp only [sloppy_run, Option.some.injEq] at h
    subst h
    have hb := hl x0 (List.getElem?_mem hx)
    rw [hx]
    simp only [slot_count, List.map_nil, List.count_nil, Nat.cast_zero, add_zero]
    rw [Int.emod_eq_of_lt hb.1 (by omega)]
  | cons call calls ih =>
    obtain ⟨cpu_id, amt⟩ := call
    intro c c1 h hunit hthr hl i x0 hx
    simp only [sloppy_run] at h
    split at h
    · cases h
    · rename_i c2 hu
      have hamt : amt = 1 := hunit (cpu_id, amt) (List.mem_cons_self _ _)
      subst hamt
      obtain ⟨_, hl2⟩ := update_nonneg hu (by decide) (fun x hx => (hl x hx).1)
      have hb2 := update_below hu hthr (fun x hx => (hl x hx).2)
      have ht2 : c2.threshold = c.threshold := (update_total hu).2.2
      have hrec := ih c2 c1 h (fun call hm => hunit call (List.mem_cons_of_mem _ hm))
        (by rw [ht2]; exact hthr) (fun x hx => ⟨hl2 x hx, hb2 x hx⟩) i
      rw [ht2] at hrec
      obtain ⟨l, hcpu, hlg, _, hc⟩ := update_cases hu
      have hlb := hl l (List.getElem?_mem hlg)
      have hlen : cpu_id.toNat < c.«local».length := (List.getElem?_eq_some_iff.mp hlg).1
      rw [slot_count_cons]
      by_cases e : cpu_id.toNat = i
      · have e2 : cpu_id = (i : Int) := by omega
        subst e
        rw [hlg] at hx
        have hxl : l = x0 := Option.some.inj hx
        subst hxl
        rw [if_pos e2]
        rcases hc with ⟨hth, _, rfl⟩ | ⟨hth, rfl⟩
        · have hval := hrec 0 (by simp [List.getElem?_set, hlen])
          rw [hval]
          congr 1
          have hl1 : l + 1 = c.threshold := by omega
          have : l + ((slot_count calls cpu_id.toNat : Int) + ((1 : Nat) : Int))
              = (0 + (slot_count calls cpu_id.toNat : Int)) + c.threshold := by
            rw [← hl1]
            push_cast
            ring
          push_cast at this ⊢
          rw [this, Int.add_emod_self]
        · have hval := hrec (l + 1) (by simp [List.getElem?_set, hlen])
          rw [hval]
          congr 1
          push_cast
          ring_nf
      · have e2 : ¬ cpu_id = (i : Int) := by omega
        rw [if_neg e2]
        have hx2 : c2.«local»[i]? = some x0 := by
          rcases hc with ⟨_, _, rfl⟩ | ⟨_, rfl⟩
          · simpa [List.getElem?_set, e] using hx
          · simpa [List.getElem?_set, e] using hx
        simpa using hrec x0 hx2

/-- C13: for a threshold `S >= 1`, if every call is a unit increment on one of
the 4 slots, every slot receives a multiple of `S` of them, and their number
fits an `int`, then all calls are defined, every local value ends at 0, and
both `sloppy_get_approx` and `sloppy_get_precise` give the number of
increments. -/
theorem flushed_when_multiples (S : Int) (hS : 1 ≤ S) (calls : List (Int × Int))
    (hcalls : ∀ call ∈ calls, (0 ≤ call.1 ∧ call.1 < NUM_CPUS) ∧ call.2 = 1)
    (hmult : ∀ i, i < NUM_CPUS → S ∣ (slot_count calls i : Int))
    (hfit : (calls.length : Int) ≤ INT_MAX) :
    ∃ c, sloppy_run calls (sloppy_init S) = some c ∧
      c.«local» = [0, 0, 0, 0] ∧
      sloppy_get_approx c = (calls.length : Int) ∧
      sloppy_get_precise c = some (calls.length : Int) := by
  have hunit : ∀ call ∈ calls, call.2 = 1 := fun call hm => (hcalls call hm).2
  have hamt := amounts_unit calls hunit
  have hnn : ∀ call ∈ calls, (0 ≤ call.1 ∧ call.1 < NUM_CPUS) ∧ 0 ≤ call.2 := by
    intro call hm
    refine ⟨(hcalls call hm).1, ?_⟩
    rw [hunit call hm]
    decide
  obtain ⟨c, hrun, _, _⟩ := run_defined_of_nonneg calls (sloppy_init S) rfl (le_refl _)
    (by intro x hx; rw [init_local_zero S x hx])
    hnn (by simp only [sloppy_init, List.sum_replicate]; rw [hamt]; simpa using hfit)
  obtain ⟨hlen, hg, hb, _, _, hsum⟩ := gap_bounds hS (fun call hm => (hnn call hm).2) hrun
  have hinit : ∀ x ∈ (sloppy_init S).«local», 0 ≤ x ∧ x ≤ (sloppy_init S).threshold - 1 := by
    intro x hx
    have := init_local_zero S x hx
    have ht : (sloppy_init S).threshold = S := rfl
    omega
  have hzero : c.«local» = [0, 0, 0, 0] := by
    apply List.ext_getElem?
    intro i
    by_cases hi : i < NUM_CPUS
    · have h0 : (sloppy_init S).«local»[i]? = some 0 := by
        simp [sloppy_init, List.getElem?_replicate, hi]
      have := slot_value calls _ c hrun hunit hS hinit i 0 h0
      rw [this, zero_add]
      have ht : (sloppy_init S).threshold = S := rfl
      rw [ht, Int.emod_eq_zero_of_dvd (hmult i hi)]
      have hi4 : i < 4 := hi
      interval_cases i <;> rfl
    · have hi4 : 4 ≤ i := by
        have : ¬ i < 4 := hi
        omega
      rw [List.getElem?_eq_none (by rw [hlen]; exact hi4),
        List.getElem?_eq_none (by simpa using hi4)]
  rw [hzero] at hsum
  simp only [List.sum_cons, List.sum_nil, add_zero] at hsum
  rw [hamt] at hsum
  refine ⟨c, hrun, hzero, hsum, ?_⟩
  have hmin : INT_MIN ≤ 0 := by decide
  have hp := precise_of_nonneg hlen (by omega) (fun x hx => (hb x hx).1)
    (by rw [hzero]; simp only [List.sum_cons, List.sum_nil, add_zero]; omega)
  rw [hp, hzero]
  simp only [List.sum_cons, List.sum_nil, add_zero]
  rw [hsum]

/-- Witness for C13: threshold 100 and 100000 unit increments on each of the
four slots give 400000 for both reads. -/
theorem flushed_when_multiples_witness :
    ∃ c, sloppy_run
        (List.replicate 100000 ((0 : Int), (1 : Int)) ++ List.replicate 100000 (1, 1) ++
          List.replicate 100000 (2, 1) ++ List.replicate 100000 (3, 1))
        (sloppy_init 100) = some c ∧
      c.«local» = [0, 0, 0, 0] ∧
      sloppy_get_approx c = 400000 ∧
      sloppy_get_precise c = some 400000 := by
  have hlen : ((List.replicate 100000 ((0 : Int), (1 : Int)) ++ List.replicate 100000 (1, 1) ++
      List.replicate 100000 (2, 1) ++ List.replicate 100000 (3, 1)).length : Int) = 400000 := by
    simp only [List.length_append, List.length_replicate]
    norm_num
  have hd : (100 : Int) ∣ ((100000 : Nat) : Int) := by norm_num
  obtain ⟨c, h1, h2, h3, h4⟩ := flushed_when_multiples 100 (by decide)
    (List.replicate 100000 ((0 : Int), (1 : Int)) ++ List.replicate 100000 (1, 1) ++
      List.replicate 100000 (2, 1) ++ List.replicate 100000 (3, 1))
    (by
      intro call hm
      simp only [List.mem_append, List.mem_replicate] at hm
      rcases hm with ((⟨_, rfl⟩ | ⟨_, rfl⟩) | ⟨_, rfl⟩) | ⟨_, rfl⟩ <;> decide)
    (by
      intro i hi
      have hi4 : i < 4 := hi
      interval_cases i <;>
        simp only [slot_count, List.map_append, List.map_replicate, List.count_append,
          List.count_replicate] <;>
        simpa using hd)
    (by rw [hlen]; decide)
  exact ⟨c, h1, h2, h3.trans hlen, h4.trans (congrArg some hlen)⟩

end SloppyCounter

/-! Hash table: a run of inserts -/

namespace ConcurrentHash

theorem total_eq_all_keys (ht : hashtable_t) :
    (hash_stats ht).total = (all_keys ht).length := by
  rw [stats_total, all_keys, List.length_flatten, List.map_map]
  congr 1
  apply List.map_congr_left
  intro chain _
  simp [chain_len_eq_length, chain_keys]

theorem mem_all_keys (ht : hashtable_t) (k : Int) : k ∈ all_keys ht ↔ present ht k := by
  unfold all_keys present
  constructor
  · intro h
    obtain ⟨l, hl, hk⟩ := List.mem_flatten.mp h
    obtain ⟨chain, hc, rfl⟩ := List.mem_map.mp hl
    unfold chain_keys at hk
    obtain ⟨n, hn, rfl⟩ := List.mem_map.mp hk
    exact ⟨chain, hc, n, hn, rfl⟩
  · rintro ⟨chain, hc, n, hn, rfl⟩
    refine List.mem_flatten.mpr ⟨chain_keys chain, List.mem_map_of_mem _ hc, ?_⟩
    unfold chain_keys
    exact List.mem_map_of_mem _ hn

theorem nodup_all_keys {ht : hashtable_t} (hinv : table_inv ht) : (all_keys ht).Nodup := by
  unfold all_keys
  rw [List.nodup_flatten]
  constructor
  · intro l hl
    obtain ⟨chain, hc, rfl⟩ := List.mem_map.mp hl
    obtain ⟨i, hi⟩ := List.getElem?_of_mem hc
    exact (hinv.2.2 i chain hi).1
  · rw [List.pairwise_iff_getElem]
    intro i j hi hj hij
    simp only [List.length_map] at hi hj
    simp only [List.getElem_map]
    intro k hki hkj
    have h1 := (hinv.2.2 i _ (List.getElem?_eq_getElem hi)).2 k hki
    have h2 := (hinv.2.2 j _ (List.getElem?_eq_getElem hj)).2 k hkj
    rw [h1] at h2
    omega

theorem lookup_found_iff {ht : hashtable_t} (hinv : table_inv ht) (k out : Int) :
    (∃ v, hash_lookup ht k out = some (1, v)) ↔ present ht k := by
  rw [present_iff hinv]
  constructor
  · rintro ⟨v, h⟩
    unfold hash_lookup at h
    simp only at h
    split at h
    · cases h
    · rename_i chain hb
      refine ⟨chain, hb, ?_⟩
      by_contra hk
      rw [(chain_find_eq_none k chain).mpr hk] at h
      simp at h
  · rintro ⟨chain, hb, hk⟩
    cases hf : chain_find k chain with
    | none => exact absurd hk ((chain_find_eq_none k chain).mp hf)
    | some v =>
      refine ⟨v, ?_⟩
      unfold hash_lookup
      simp only [hb, hf]

theorem insert_lookup {ht ht1 : hashtable_t} {k v r : Int}
    (h : hash_insert ht k v true = some (ht1, r)) (k2 out : Int) :
    hash_lookup ht1 k2 out = if k = k2 then some (1, v) else hash_lookup ht k2 out := by
  unfold hash_insert at h
  simp only [Bool.true_eq_false, if_false] at h
  split at h
  · cases h
  · rename_i chain hb
    by_cases e : k = k2
    · subst e
      rw [if_pos rfl]
      split at h
      · rename_i chain1 hu
        cases h
        rw [hash_lookup_set_same _ out hb, chain_find_update_same k v chain chain1 hu]
      · cases h
        rw [hash_lookup_set_same _ out hb]
        simp [chain_find]
    · rw [if_neg e]
      split at h
      · rename_i chain1 hu
        cases h
        exact hash_lookup_congr chain1 k2 out hb
          (chain_find_update_other k v k2 (fun e2 => e e2.symm) chain chain1 hu)
      · cases h
        apply hash_lookup_congr _ k2 out hb
        simp [chain_find, e]

theorem insert_present {ht ht1 : hashtable_t} {k v r : Int} (hinv : table_inv ht)
    (h : hash_insert ht k v true = some (ht1, r)) (k2 : Int) :
    present ht1 k2 ↔ present ht k2 ∨ k2 = k := by
  have hinv1 := table_inv_insert hinv h
  rw [← lookup_found_iff hinv1 k2 0, ← lookup_found_iff hinv k2 0, insert_lookup h k2 0]
  by_cases e : k = k2
  · rw [if_pos e]
    constructor
    · intro _; exact Or.inr e.symm
    · intro _; exact ⟨v, rfl⟩
  · rw [if_neg e]
    constructor
    · intro hp; exact Or.inl hp
    · rintro (hp | hp)
      · exact hp
      · exact absurd hp.symm e

theorem insert_defined {ht : hashtable_t} (hinv : table_inv ht) {k : Int} (v : Int)
    (h1 : INT_MIN < k) (h2 : k ≤ INT_MAX) :
    ∃ ht1 r, hash_insert ht k v true = some (ht1, r) := by
  obtain ⟨_, h0, hlt⟩ := hash_func_range ht hinv.1 h1 h2
  rw [hinv.1] at hlt
  have hl : (hash_func ht k).toNat < ht.buckets.length := by
    rw [hinv.2.1]; omega
  have hb : bucket_at ht (hash_func ht k) = some ht.buckets[(hash_func ht k).toNat] := by
    unfold bucket_at NUM_BUCKETS
    rw [if_pos ⟨h0, by simpa using hlt⟩]
    exact List.getElem?_eq_getElem hl
  unfold hash_insert
  simp only [Bool.true_eq_false, if_false, hb]
  split
  · exact ⟨_, _, rfl⟩
  · exact ⟨_, _, rfl⟩

theorem inserts_run : ∀ (ins : List (Int × Int)) (ht0 ht : hashtable_t),
    table_inv ht0 → hash_run (insert_calls ins) ht0 = some ht →
    table_inv ht ∧
    (∀ k, present ht k ↔ present ht0 k ∨ k ∈ ins.map Prod.fst) ∧
    (∀ k out, hash_lookup ht k out =
      match last_write ins k with
      | some w => some (1, w)
      | none => hash_lookup ht0 k out) := by
  intro ins
  induction ins with
  | nil =>
    intro ht0 ht hinv h
    simp only [insert_calls, List.map_nil, hash_run, Option.some.injEq] at h
    subst h
    exact ⟨hinv, by simp, by simp [last_write]⟩
  | cons p ins ih =>
    obtain ⟨key, value⟩ := p
    intro ht0 ht hinv h
    simp only [insert_calls, List.map_cons, hash_run] at h
    split at h
    · cases h
    · rename_i ht1 hs
      simp only [hash_step, Option.map_eq_some'] at hs
      obtain ⟨⟨x, r⟩, hx, rfl⟩ := hs
      have hinv1 := table_inv_insert hinv hx
      obtain ⟨hinv2, hp, hl⟩ := ih x ht hinv1 h
      refine ⟨hinv2, ?_, ?_⟩
      · intro k
        rw [hp k, insert_present hinv hx k]
        simp only [List.map_cons, List.mem_cons]
        tauto
      · intro k out
        rw [hl k out]
        simp only [last_write]
        cases hw : last_write ins k with
        | some w => rfl
        | none =>
          simp only
          rw [insert_lookup hx k out]
          by_cases e : key = k
          · simp [e]
          · simp [e]

theorem inserts_defined : ∀ (ins : List (Int × Int)) (ht0 : hashtable_t),
    table_inv ht0 → (∀ p ∈ ins, INT_MIN < p.1 ∧ p.1 ≤ INT_MAX) →
    ∃ ht, hash_run (insert_calls ins) ht0 = some ht := by
  intro ins
  induction ins with
  | nil => intro ht0 _ _; exact ⟨ht0, rfl⟩
  | cons p ins ih =>
    obtain ⟨key, value⟩ := p
    intro ht0 hinv hk
    have hkey := hk (key, value) (List.mem_cons_self _ _)
    obtain ⟨ht1, r, h1⟩ := insert_defined hinv value hkey.1 hkey.2
    obtain ⟨ht, h2⟩ := ih ht1 (table_inv_insert hinv h1)
      (fun p hm => hk p (List.mem_cons_of_mem _ hm))
    refine ⟨ht, ?_⟩
    simp only [insert_calls, List.map_cons, hash_run, hash_step, h1, Option.map_some']
    exact h2

theorem last_write_some (ins : List (Int × Int)) (k : Int) (h : k ∈ ins.map Prod.fst) :
    ∃ v, last_write ins k = some v := by
  induction ins with
  | nil => simp at h
  | cons p ins ih =>
    obtain ⟨key, value⟩ := p
    simp only [List.map_cons, List.mem_cons] at h
    simp only [last_write]
    cases hw : last_write ins k with
    | some w => exact ⟨w, rfl⟩
    | none =>
      rcases h with h | h
      · exact ⟨value, by simp [h]⟩
      · obtain ⟨v, hv⟩ := ih h
        rw [hw] at hv
        cases hv

theorem not_present_init (k : Int) : ¬ present hash_init k := by
  rintro ⟨chain, hmem, n, hn, _⟩
  simp [hash_init] at hmem
  rw [hmem.2] at hn
  cases hn

/-- C14: when the pairs of `ins` are inserted, in order, into a table fresh
from `hash_init` (every call with a node from `malloc`, every call
returning), and `keys` lists the keys of `ins` without repetition, then
`hash_lookup` finds every one of those keys with the value of its last pair
in `ins`, and the total of `hash_stats` is the number of keys. -/
theorem distinct_inserts (ins : List (Int × Int)) (keys : List Int) (hnd : keys.Nodup)
    (hkeys : ∀ k, k ∈ keys ↔ k ∈ ins.map Prod.fst) (ht : hashtable_t)
    (hrun : hash_run (insert_calls ins) hash_init = some ht) :
    (∀ k ∈ keys, ∀ out, ∃ v, last_write ins k = some v ∧ hash_lookup ht k out = some (1, v)) ∧
    (hash_stats ht).total = keys.length := by
  obtain ⟨hinv, hp, hl⟩ := inserts_run ins hash_init ht table_inv_init hrun
  constructor
  · intro k hk out
    obtain ⟨v, hv⟩ := last_write_some ins k ((hkeys k).mp hk)
    refine ⟨v, hv, ?_⟩
    rw [hl k out, hv]
  · rw [total_eq_all_keys]
    apply List.Perm.length_eq
    rw [List.perm_ext_iff_of_nodup (nodup_all_keys hinv) hnd]
    intro k
    rw [mem_all_keys, hp k, hkeys k]
    constructor
    · rintro (h | h)
      · exact absurd h (not_present_init k)
      · exact h
    · intro h; exact Or.inr h

theorem two_ranges_keys :
    two_ranges.map Prod.fst
      = (List.range 500).map (fun (i : Nat) => (i : Int)) ++
        (List.range 500).map (fun (i : Nat) => (i : Int) + 1000) := by
  unfold two_ranges
  rw [List.map_append, List.map_map, List.map_map]
  rfl

theorem two_ranges_nodup : (two_ranges.map Prod.fst).Nodup := by
  rw [two_ranges_keys]
  apply List.Nodup.append
  · apply List.Nodup.map _ (List.nodup_range 500)
    intro a b hab
    have : (a : Int) = b := hab
    exact_mod_cast this
  · apply List.Nodup.map _ (List.nodup_range 500)
    intro a b hab
    have : (a : Int) = b := by
      have h2 : (a : Int) + 1000 = (b : Int) + 1000 := hab
      omega
    exact_mod_cast this
  · intro k h1 h2
    obtain ⟨i, hi, rfl⟩ := List.mem_map.mp h1
    obtain ⟨j, hj, e⟩ := List.mem_map.mp h2
    rw [List.mem_range] at hi hj
    omega

theorem two_ranges_bounds : ∀ p ∈ two_ranges, INT_MIN < p.1 ∧ p.1 ≤ INT_MAX := by
  intro p hp
  unfold two_ranges at hp
  unfold INT_MIN INT_MAX
  rcases List.mem_append.mp hp with h | h
  · obtain ⟨i, hi, rfl⟩ := List.mem_map.mp h
    rw [List.mem_range] at hi
    constructor <;> simp only <;> omega
  · obtain ⟨i, hi, rfl⟩ := List.mem_map.mp h
    rw [List.mem_range] at hi
    constructor <;> simp only <;> omega

/-- Witness for C14: the keys 0..499 and 1000..1499 are all inserted, all
found, and the total is 1000. -/
theorem distinct_inserts_witness :
    ∃ ht, hash_run (insert_calls two_ranges) hash_init = some ht ∧
      (∀ k ∈ two_ranges.map Prod.fst, ∀ out,
        ∃ v, last_write two_ranges k = some v ∧ hash_lookup ht k out = some (1, v)) ∧
      (hash_stats ht).total = 1000 := by
  obtain ⟨ht, hrun⟩ := inserts_defined two_ranges hash_init table_inv_init two_ranges_bounds
  have h := distinct_inserts two_ranges (two_ranges.map Prod.fst) two_ranges_nodup
    (fun _ => Iff.rfl) ht hrun
  have hlen : (two_ranges.map Prod.fst).length = 1000 := by
    rw [two_ranges_keys, List.length_append, List.length_map, List.length_map,
      List.length_range]
  exact ⟨ht, hrun, h.1, h.2.trans hlen⟩

end ConcurrentHash

/-! Sloppy counter: the order in which the mutexes are taken -/

namespace SloppyCounter

theorem four_slots {l : List Int} (h : l.length = NUM_CPUS) :
    ∃ a b c d, l = [a, b, c, d] := by
  match l, h with
  | [a, b, c, d], _ => exact ⟨a, b, c, d, rfl⟩

/-- A thread that runs `sloppy_update` alone, from all mutexes unlocked, ends
with the counter `sloppy_update` computes and all mutexes unlocked again. -/
theorem update_thread_runs {c c1 : sloppy_counter_t} {cpu_id amt : Int}
    (hlen : c.«local».length = NUM_CPUS) (h : sloppy_update c cpu_id amt = some c1) :
    ∃ sched, sched_run sched (start c [.update_lock_local cpu_id amt])
      = some (start c1 [.finished none]) := by
  obtain ⟨l, hcpu, hlg, hfit, hc⟩ := update_cases h
  obtain ⟨g, loc, thr⟩ := c
  obtain ⟨x0, x1, x2, x3, rfl⟩ := four_slots hlen
  have hadd : add32 l amt = some (l + amt) := by
    unfold add32
    rw [if_pos hfit]
  obtain ⟨n, hn⟩ : ∃ n : Nat, cpu_id = (n : Int) := ⟨cpu_id.toNat, by omega⟩
  subst hn
  have hn4 : n < 4 := by
    have := hcpu.2
    have h4 : ((NUM_CPUS : Nat) : Int) = 4 := rfl
    omega
  clear h hcpu
  rw [Int.toNat_ofNat] at hlg hc
  rcases hc with ⟨hth, hfit2, rfl⟩ | ⟨hth, rfl⟩
  · have hadd2 : add32 g (l + amt) = some (g + (l + amt)) := by
      unfold add32
      rw [if_pos hfit2]
    have hth2 : l + amt ≥ thr := hth
    refine ⟨[0, 0, 0, 0], ?_⟩
    interval_cases n <;>
      simp [List.getElem?_cons_succ] at hlg <;>
      subst hlg <;>
      simp [sched_run, thread_step, start, NUM_CPUS, hadd, hadd2, hth2]
  · have hth2 : ¬ l + amt ≥ thr := by
      have : l + amt < thr := hth
      omega
    refine ⟨[0, 0], ?_⟩
    interval_cases n <;>
      simp [List.getElem?_cons_succ] at hlg <;>
      subst hlg <;>
      simp [sched_run, thread_step, start, NUM_CPUS, hadd, hth2]

/-- A thread that runs `sloppy_get_precise` alone takes ten mutex steps and
returns what `sloppy_get_precise` computes, the counter unchanged. -/
theorem precise_thread_runs {c : sloppy_counter_t} {r : Int}
    (hlen : c.«local».length = NUM_CPUS) (h : sloppy_get_precise c = some r) :
    sched_run [0, 0, 0, 0, 0, 0, 0, 0, 0, 0] (start c [.precise_lock_global])
      = some (start c [.finished (some r)]) := by
  obtain ⟨g, loc, thr⟩ := c
  obtain ⟨x0, x1, x2, x3, rfl⟩ := four_slots hlen
  simp only [sloppy_get_precise, NUM_CPUS, precise_loop, List.getElem?_cons_zero,
    List.getElem?_cons_succ] at h
  cases h0 : add32 g x0 with
  | none => simp [h0] at h
  | some t0 =>
    simp only [h0] at h
    cases h1 : add32 t0 x1 with
    | none => simp [h1] at h
    | some t1 =>
      simp only [h1] at h
      cases h2 : add32 t1 x2 with
      | none => simp [h2] at h
      | some t2 =>
        simp only [h2] at h
        cases h3 : add32 t2 x3 with
        | none => simp [h3] at h
        | some t3 =>
          simp only [h3, Option.some.injEq] at h
          subst h
          simp [sched_run, thread_step, start, NUM_CPUS, h0, h1, h2, h3]

/-- C16, the failing interleaving: thread 0 calls `sloppy_update(c, 0, 1)` on a
counter with threshold 1 and thread 1 calls `sloppy_get_precise(c)`. After
thread 0 has locked `llock[0]` and thread 1 has locked `glock`, thread 0
waits for `glock` and thread 1 for `llock[0]`: neither can take a step. -/
theorem update_precise_deadlock :
    sched_run [0, 1]
      (start (sloppy_init 1) [.update_lock_local 0 1, .precise_lock_global]) = some crossed ∧
    deadlocked crossed = true ∧
    wanted (.update_lock_global 0) = some .glock ∧ holder crossed .glock = some 1 ∧
    wanted (.precise_lock_local 0 0) = some (.llock 0) ∧ holder crossed (.llock 0) = some 0 ∧
    thread_step crossed 0 = none ∧ thread_step crossed 1 = none := by
  refine ⟨by decide, by decide, by decide, by decide, by decide, by decide, by decide,
    by decide⟩

end SloppyCounter
